import Mathlib

/-!
Verification of the CrossPoint Reader EPUB image converter
(`crosspoint_reader/converter.py`).

The development shallowly embeds the converter: archive entries are lists of
bytes (`List Nat`), text is `List Char`, Python float arithmetic on scale
factors is modelled over `ℚ`, and the Pillow image object is modelled as a
term recording the geometric operations applied to it (decode, resize,
rotate, crop, compositing), since only sizes and crop boxes are observable
to the properties under study.  Python regular expressions used by the
converter are embedded with a small backtracking engine whose match
priority (leftmost, greedy, alternation left-first) follows `re`.
-/

/-- Characters of a string literal, the representation used for all text. -/
def ls (s : String) : List Char := s.data

/-- Python `str.lower()` restricted to ASCII (`Char.toLower`); entry names and
markup treated by the converter are ASCII. -/
def pyLower (s : List Char) : List Char := s.map Char.toLower

/-- Test whether `p` is a prefix of `s` (by taking and comparing). -/
def leadsWith (p s : List Char) : Bool := s.take p.length == p

/-- Python `str.endswith`. -/
def endsWithL (s suf : List Char) : Bool :=
  s.drop (s.length - suf.length) == suf && decide (suf.length ≤ s.length)

/-- Test whether `pat` occurs as a contiguous substring of `t`. -/
def containsSub (t pat : List Char) : Bool :=
  (List.range (t.length + 1)).any (fun i => leadsWith pat (t.drop i))

/-- Test whether `pat` occurs in `t` ignoring ASCII case. -/
def containsSubCI (t pat : List Char) : Bool :=
  containsSub (pyLower t) (pyLower pat)

/-- Python `os.path.basename`: the part after the last slash. -/
def basenameL (s : List Char) : List Char :=
  (s.reverse.takeWhile (fun c => c ≠ '/')).reverse

/-- Loop of Python `str.replace` for a non-empty needle `o :: os`: scan left to
right, replace each (non-overlapping) occurrence, copy other characters.  The
first argument is structural-recursion fuel; every step consumes at least one
character, so any fuel at least the text length gives the scan's value. -/
def replLoop (o : Char) (os : List Char) (new : List Char) : Nat → List Char → List Char
  | _, [] => []
  | 0, t => t
  | fuel + 1, c :: r =>
    if leadsWith (o :: os) (c :: r) then new ++ replLoop o os new fuel (r.drop os.length)
    else c :: replLoop o os new fuel r

/-- Python `str.replace(old, new)`; an empty `old` inserts `new` at every
character boundary, as Python does. -/
def pythonReplace (old new t : List Char) : List Char :=
  match old with
  | [] => new ++ t.flatMap (fun c => c :: new)
  | o :: os => replLoop o os new t.length t

/-- Python error-handler modes of `bytes.decode`. -/
inductive DecMode where
  | strict
  | ignore
  | replace
deriving DecidableEq

/-- Test for a UTF-8 continuation byte. -/
def contByte (b : Nat) : Bool := 0x80 ≤ b && b ≤ 0xBF

/-- Decode one UTF-8 sequence whose first byte is `b` and whose further bytes
come from `rest`.  Returns the decoded character (`none` on a malformed
sequence) and how many bytes of `rest` belong to the sequence; on an error the
count is the length of the maximal valid subpart after `b`, which is what
CPython's UTF-8 decoder skips under a non-strict handler. -/
def utf8After (b : Nat) (rest : List Nat) : Option Char × Nat :=
  if b ≤ 0x7F then (some (Char.ofNat b), 0)
  else if 0xC2 ≤ b && b ≤ 0xDF then
    match rest with
    | b2 :: _ =>
      if contByte b2 then (some (Char.ofNat ((b - 0xC0) * 0x40 + (b2 - 0x80))), 1)
      else (none, 0)
    | [] => (none, 0)
  else if 0xE0 ≤ b && b ≤ 0xEF then
    let lo2 : Nat := if b = 0xE0 then 0xA0 else 0x80
    let hi2 : Nat := if b = 0xED then 0x9F else 0xBF
    match rest with
    | b2 :: rest2 =>
      if lo2 ≤ b2 && b2 ≤ hi2 then
        match rest2 with
        | b3 :: _ =>
          if contByte b3 then
            (some (Char.ofNat (((b - 0xE0) * 0x40 + (b2 - 0x80)) * 0x40 + (b3 - 0x80))), 2)
          else (none, 1)
        | [] => (none, 1)
      else (none, 0)
    | [] => (none, 0)
  else if 0xF0 ≤ b && b ≤ 0xF4 then
    let lo2 : Nat := if b = 0xF0 then 0x90 else 0x80
    let hi2 : Nat := if b = 0xF4 then 0x8F else 0xBF
    match rest with
    | b2 :: rest2 =>
      if lo2 ≤ b2 && b2 ≤ hi2 then
        match rest2 with
        | b3 :: rest3 =>
          if contByte b3 then
            match rest3 with
            | b4 :: _ =>
              if contByte b4 then
                (some (Char.ofNat ((((b - 0xF0) * 0x40 + (b2 - 0x80)) * 0x40 + (b3 - 0x80)) * 0x40
                  + (b4 - 0x80))), 3)
              else (none, 2)
            | [] => (none, 2)
          else (none, 1)
        | [] => (none, 1)
      else (none, 0)
    | [] => (none, 0)
  else (none, 0)

/-- Decoding loop of `bytes.decode('utf-8', errors=mode)`: strict mode fails
on the first malformed sequence, `ignore` drops it, `replace` substitutes
U+FFFD.  The first argument is structural-recursion fuel; every step consumes
at least one byte, so any fuel at least the input length gives the value. -/
def utf8DecodeGo (mode : DecMode) : Nat → List Nat → Except Unit (List Char)
  | _, [] => .ok []
  | 0, _ => .ok []
  | fuel + 1, b :: rest =>
    match utf8After b rest with
    | (some c, k) =>
      match utf8DecodeGo mode fuel (rest.drop k) with
      | .ok cs => .ok (c :: cs)
      | .error e => .error e
    | (none, k) =>
      match mode with
      | .strict => .error ()
      | .ignore => utf8DecodeGo mode fuel (rest.drop k)
      | .replace =>
        match utf8DecodeGo mode fuel (rest.drop k) with
        | .ok cs => .ok (Char.ofNat 0xFFFD :: cs)
        | .error e => .error e

/-- Python `bytes.decode('utf-8', errors=mode)`. -/
def pyUtf8Decode (mode : DecMode) (l : List Nat) : Except Unit (List Char) :=
  utf8DecodeGo mode l.length l

/-- Decoded text of an entry as the converter reads it
(`.decode('utf-8', errors='ignore')`, `converter.py` lines 153, 157, 293). -/
def decodeIgnore (bs : List Nat) : List Char :=
  match pyUtf8Decode .ignore bs with
  | .ok cs => cs
  | .error _ => []

/-- Decoding with every malformed sequence replaced by U+FFFD.  Modelled from
the spec, which states that text-classified entries are "decoded with invalid
sequences replaced rather than raising"; kept for comparison with the
converter's actual `errors='ignore'` decoding. -/
def decodeReplaceSpec (bs : List Nat) : List Char :=
  match pyUtf8Decode .replace bs with
  | .ok cs => cs
  | .error _ => []

/-- Python `str.encode('utf-8')` for the scalar values the decoder produces. -/
def utf8EncodeChar (c : Char) : List Nat :=
  let n := c.toNat
  if n ≤ 0x7F then [n]
  else if n ≤ 0x7FF then [0xC0 + n / 0x40, 0x80 + n % 0x40]
  else if n ≤ 0xFFFF then
    [0xE0 + n / 0x1000, 0x80 + n / 0x40 % 0x40, 0x80 + n % 0x40]
  else
    [0xF0 + n / 0x40000, 0x80 + n / 0x1000 % 0x40, 0x80 + n / 0x40 % 0x40, 0x80 + n % 0x40]

/-- Python `str.encode('utf-8')`. -/
def utf8Encode (s : List Char) : List Nat := s.flatMap utf8EncodeChar

/-- Converter configuration (`EpubConverter.__init__`); scale arithmetic done
by Python on floats is modelled over `ℚ`.  `jpeg_quality` holds the stored
(already clamped) value. -/
structure Config where
  jpeg_quality : Int
  max_width : Nat
  max_height : Nat
  enable_split_rotate : Bool
  overlap : ℚ

/-- Quality clamping done in `__init__`: `max(1, min(95, jpeg_quality))`. -/
def clampQuality (q : Int) : Int := max 1 (min 95 q)

/-- Pillow colour modes distinguished by the converter. -/
inductive PMode where
  | RGB
  | RGBA
  | LA
  | P
  | other (name : List Char)
deriving DecidableEq

/-- Pillow image object, modelled as the tree of operations applied to it;
only sizes, modes and crop boxes are observable to the converter. -/
inductive PILImage where
  | decoded (w h : Nat) (mode : PMode) (src : List Nat)
  | newRGB (w h : Nat) (color : Nat × Nat × Nat)
  | convert (i : PILImage) (m : PMode)
  | pasteMask (bg : PILImage) (src : PILImage)
  | resize (i : PILImage) (w h : Nat)
  | rotate270 (i : PILImage)
  | crop (i : PILImage) (x0 y0 x1 y1 : Int)
deriving DecidableEq

/-- Size `(width, height)` of a Pillow image (`img.size`); a 90-degree
rotation swaps the dimensions, a crop box `(x0, y0, x1, y1)` yields
`(x1 - x0, y1 - y0)`. -/
def PILImage.size : PILImage → Nat × Nat
  | .decoded w h _ _ => (w, h)
  | .newRGB w h _ => (w, h)
  | .convert i _ => i.size
  | .pasteMask bg _ => bg.size
  | .resize _ w h => (w, h)
  | .rotate270 i => (i.size.2, i.size.1)
  | .crop _ x0 y0 x1 y1 => ((x1 - x0).toNat, (y1 - y0).toNat)

/-- Width of a Pillow image (`img.size[0]`). -/
def PILImage.width (i : PILImage) : Nat := i.size.1

/-- Height of a Pillow image (`img.size[1]`). -/
def PILImage.height (i : PILImage) : Nat := i.size.2

/-- Colour mode of a Pillow image. -/
def PILImage.mode : PILImage → PMode
  | .decoded _ _ m _ => m
  | .newRGB _ _ _ => .RGB
  | .convert _ m => m
  | .pasteMask bg _ => bg.mode
  | .resize i _ _ => i.mode
  | .rotate270 i => i.mode
  | .crop i _ _ _ _ => i.mode

/-- Bytes put into the destination archive for one entry: either raw bytes or
a baseline (non-progressive) JPEG encoding of an image at a quality. -/
inductive OutData where
  | raw (bs : List Nat)
  | jpeg (img : PILImage) (quality : Int)
deriving DecidableEq

/-- One part returned by `_process_image`: payload plus name suffix. -/
structure ImgPart where
  data : OutData
  suffix : List Char
deriving DecidableEq

/-- Python `int()` of a rational: truncation toward zero. -/
def pyInt (q : ℚ) : Int := if 0 ≤ q then ⌊q⌋ else -⌊-q⌋

/-- Size and mode information Pillow reports for a decodable image. -/
structure Decoded where
  w : Nat
  h : Nat
  mode : PMode
deriving DecidableEq

/-- Mode normalization at the head of `_process_image` (lines 330-338):
alpha-carrying or palette images are composited onto an opaque white
background; any other non-RGB mode is converted to RGB. -/
def normalizeMode (img : PILImage) : PILImage :=
  if img.mode = .RGBA ∨ img.mode = .LA ∨ img.mode = .P then
    let background := PILImage.newRGB img.width img.height (255, 255, 255)
    let img1 := if img.mode = .P then PILImage.convert img .RGBA else img
    if img1.mode = .RGBA ∨ img1.mode = .LA then PILImage.pasteMask background img1 else img1
  else if img.mode ≠ .RGB then PILImage.convert img .RGB
  else img

/-- Faithful embedding of `EpubConverter._process_normal`. The guard mirrors
Python's `ZeroDivisionError` when a zero dimension reaches `max_width/orig_w`
or `max_height/orig_h`. -/
def process_normal (cfg : Config) (img : PILImage) (orig_w orig_h : Nat) :
    Except (List Char) (List ImgPart) :=
  if orig_w ≤ cfg.max_width ∧ orig_h ≤ cfg.max_height then
    .ok [⟨OutData.jpeg img cfg.jpeg_quality, []⟩]
  else if orig_w = 0 ∨ orig_h = 0 then .error (ls ("ZeroDivisionError"))
  else
    let scale : ℚ :=
      min ((cfg.max_width : ℚ) / (orig_w : ℚ)) ((cfg.max_height : ℚ) / (orig_h : ℚ))
    let new_w : Nat := (pyInt ((orig_w : ℚ) * scale)).toNat
    let new_h : Nat := (pyInt ((orig_h : ℚ) * scale)).toNat
    .ok [⟨OutData.jpeg (PILImage.resize img new_w new_h) cfg.jpeg_quality, []⟩]

/-- Crop start offset of split tile `i` (lines 404-407): stepped down from the
right edge, forced to 0 for the last tile, clamped to be non-negative. -/
def tileX (max_w rot_w : Nat) (step num_parts : Int) (i : Nat) : Int :=
  max 0 (if (i : Int) = num_parts - 1 then 0
         else (rot_w : Int) - (max_w : Int) - (i : Int) * step)

/-- Tile `i` emitted by the split loop (lines 402-415). -/
def splitTile (cfg : Config) (img2 : PILImage) (rot_w rot_h : Nat)
    (step num_parts : Int) (i : Nat) : ImgPart :=
  let x := tileX cfg.max_width rot_w step num_parts i
  let part_w : Int := min (cfg.max_width : Int) ((rot_w : Int) - x)
  ⟨OutData.jpeg (PILImage.crop img2 x 0 (x + part_w) rot_h) cfg.jpeg_quality,
    ls ("_part") ++ (toString (i + 1)).data⟩

/-- Faithful embedding of `EpubConverter._process_split_rotate`: rescale so
width equals `max_height`, rotate 90 degrees clockwise, then split by width
from right to left when the rotated width exceeds `max_width`.  The two error
branches mirror Python's `ZeroDivisionError` (`max_height / orig_w` with a
zero width, and `// step` with a zero step). -/
def process_split_rotate (cfg : Config) (img : PILImage) (orig_w orig_h : Nat) :
    Except (List Char) (List ImgPart) :=
  if orig_w = 0 then .error (ls ("ZeroDivisionError"))
  else
    let scale : ℚ := (cfg.max_height : ℚ) / (orig_w : ℚ)
    let scaled_w : Nat := cfg.max_height
    let scaled_h : Nat := (pyInt ((orig_h : ℚ) * scale)).toNat
    let img1 := PILImage.resize img scaled_w scaled_h
    let img2 := PILImage.rotate270 img1
    let rot_w := img2.width
    let rot_h := img2.height
    if rot_w ≤ cfg.max_width then
      .ok [⟨OutData.jpeg img2 cfg.jpeg_quality, []⟩]
    else
      let overlap_px : Int := pyInt ((cfg.max_width : ℚ) * cfg.overlap)
      let step : Int := (cfg.max_width : Int) - overlap_px
      if step = 0 then .error (ls ("ZeroDivisionError"))
      else
        let num_parts : Int := Int.fdiv ((rot_w : Int) - overlap_px + step - 1) step
        .ok ((List.range num_parts.toNat).map
          (fun i => splitTile cfg img2 rot_w rot_h step num_parts i))

/-- Body of the `try` block of `EpubConverter._process_image`: decode (the
external Pillow decoder is a parameter `dec`, its result on the given bytes),
normalize the mode, then dispatch on the wide-and-oversized test. -/
def process_image_core (cfg : Config) (dec : Option Decoded) (data : List Nat) :
    Except (List Char) (List ImgPart) :=
  match dec with
  | none => .error (ls ("cannot identify image file"))
  | some d =>
    let img := normalizeMode (PILImage.decoded d.w d.h d.mode data)
    let orig_w := img.width
    let orig_h := img.height
    let is_horizontal := orig_h < orig_w
    let exceeds_screen := cfg.max_width < orig_w ∨ cfg.max_height < orig_h
    if (is_horizontal ∧ exceeds_screen) ∧ cfg.enable_split_rotate = true then
      process_split_rotate cfg img orig_w orig_h
    else
      process_normal cfg img orig_w orig_h

/-- Faithful embedding of `EpubConverter._process_image`: any failure in the
body (decode or processing) is caught and the original bytes are returned as a
single part with an empty suffix (lines 352-355). -/
def process_image (cfg : Config) (dec : Option Decoded) (data : List Nat) : List ImgPart :=
  match process_image_core cfg dec data with
  | .ok parts => parts
  | .error _ => [⟨OutData.raw data, []⟩]

/-- C3: for a 1600x1000 image with `max_width = 480`, `max_height = 800`,
`overlap = 0.15` and light-novel mode on, the split-rotate path rescales to
800x500, rotates to 500x800, and splits with `overlap_px = 72`, `step = 408`,
`num_parts = 2`, emitting a tile cropped at x = 20 of width 480 and then the
last tile forced to x = 0 of width 480, with suffixes `_part1`, `_part2`. -/
theorem C3_split_example :
    process_image ⟨85, 480, 800, true, 3 / 20⟩ (some ⟨1600, 1000, .RGB⟩) [] =
      [⟨OutData.jpeg
          (.crop (.rotate270 (.resize (.decoded 1600 1000 .RGB []) 800 500)) 20 0 500 800) 85,
        ls ("_part1")⟩,
       ⟨OutData.jpeg
          (.crop (.rotate270 (.resize (.decoded 1600 1000 .RGB []) 800 500)) 0 0 480 800) 85,
        ls ("_part2")⟩]
    ∧ (PILImage.resize (.decoded 1600 1000 .RGB []) 800 500).size = (800, 500)
    ∧ (PILImage.rotate270 (.resize (.decoded 1600 1000 .RGB []) 800 500)).size = (500, 800)
    ∧ pyInt ((480 : ℚ) * (3 / 20)) = 72
    ∧ (480 : Int) - pyInt ((480 : ℚ) * (3 / 20)) = 408
    ∧ Int.fdiv ((500 : Int) - 72 + 408 - 1) 408 = 2 := by
  refine ⟨?_, by decide, by decide, ?_, ?_, by decide⟩
  · simp only [process_image, process_image_core, normalizeMode, PILImage.mode,
      PILImage.size, PILImage.width, PILImage.height, process_split_rotate,
      process_normal, splitTile, tileX, pyInt, ls]
    norm_num [Int.fdiv]
    decide
  · unfold pyInt; norm_num
  · unfold pyInt; norm_num

/-- Evaluation of `pyInt` on a non-negative rational: plain floor. -/
theorem pyInt_of_nonneg {q : ℚ} (h : 0 ≤ q) : pyInt q = ⌊q⌋ := by
  simp [pyInt, h]

/-- With an overlap fraction in the configured range `[0, 1/2]` and a rotated
width exceeding `max_width`, the ceiling-style tile count of the split loop is
at least 1 (so the loop emits at least one tile). -/
theorem split_num_parts_pos (maxW rotW : Nat) (ov : ℚ) (h0 : 0 ≤ ov) (h1 : ov ≤ 1 / 2)
    (hlt : maxW < rotW) (hstep : (maxW : Int) - pyInt ((maxW : ℚ) * ov) ≠ 0) :
    1 ≤ Int.fdiv
      ((rotW : Int) - pyInt ((maxW : ℚ) * ov) + ((maxW : Int) - pyInt ((maxW : ℚ) * ov)) - 1)
      ((maxW : Int) - pyInt ((maxW : ℚ) * ov)) := by
  have hprod : (0 : ℚ) ≤ (maxW : ℚ) * ov := mul_nonneg (by positivity) h0
  rw [pyInt_of_nonneg hprod] at hstep ⊢
  have ho0 : 0 ≤ ⌊(maxW : ℚ) * ov⌋ := Int.floor_nonneg.mpr hprod
  have hole : ⌊(maxW : ℚ) * ov⌋ ≤ (maxW : Int) := by
    have hb : ((maxW : ℚ) * ov) ≤ (maxW : ℚ) := by nlinarith
    calc ⌊(maxW : ℚ) * ov⌋ ≤ ⌊(maxW : ℚ)⌋ := Int.floor_le_floor hb
      _ = (maxW : Int) := Int.floor_natCast maxW
  have hr : (maxW : Int) < (rotW : Int) := by exact_mod_cast hlt
  rw [Int.fdiv_eq_ediv _ (by omega)]
  rw [Int.le_ediv_iff_mul_le (by omega)]
  omega

/-- The normal path always returns a single part. -/
theorem process_normal_ok_nonempty (cfg : Config) (img : PILImage) (w h : Nat)
    (parts : List ImgPart) : process_normal cfg img w h = .ok parts → parts ≠ [] := by
  intro hk
  unfold process_normal at hk
  split_ifs at hk <;> simp only [Except.ok.injEq] at hk <;> subst hk <;> simp

/-- The split-rotate path, when it returns, returns at least one part, given
an overlap fraction in the configured range. -/
theorem process_split_rotate_ok_nonempty (cfg : Config) (img : PILImage) (w h : Nat)
    (h0 : 0 ≤ cfg.overlap) (h1 : cfg.overlap ≤ 1 / 2) (parts : List ImgPart) :
    process_split_rotate cfg img w h = .ok parts → parts ≠ [] := by
  intro hk
  simp only [process_split_rotate] at hk
  split_ifs at hk with hw hrot hstep <;> simp only [Except.ok.injEq] at hk
  · subst hk; simp
  · subst hk
    simp only [ne_eq, List.map_eq_nil_iff, List.range_eq_nil]
    have h1le := split_num_parts_pos cfg.max_width
      (PILImage.rotate270 (PILImage.resize img cfg.max_height
        (pyInt ((h : ℚ) * ((cfg.max_height : ℚ) / (w : ℚ)))).toNat)).width
      cfg.overlap h0 h1 (by omega) hstep
    omega

/-- C2: `_process_image` never raises.  For every decode outcome and input
byte string (with the overlap fraction in its configured range 0..50%), the
result is a non-empty list of parts, and whenever the processing body fails
(decode failure or an internal error) the result is exactly one part holding
the original bytes unchanged with an empty suffix. -/
theorem C2_process_image_never_raises (cfg : Config) (dec : Option Decoded) (data : List Nat)
    (h0 : 0 ≤ cfg.overlap) (h1 : cfg.overlap ≤ 1 / 2) :
    process_image cfg dec data ≠ []
    ∧ (∀ e, process_image_core cfg dec data = .error e →
        process_image cfg dec data = [⟨OutData.raw data, []⟩]) := by
  constructor
  · unfold process_image
    cases hc : process_image_core cfg dec data with
    | error e => simp
    | ok parts =>
      simp only [ne_eq]
      unfold process_image_core at hc
      cases dec with
      | none => cases hc
      | some d =>
        simp only [] at hc
        split_ifs at hc with hsr
        · exact process_split_rotate_ok_nonempty _ _ _ _ h0 h1 _ hc
        · exact process_normal_ok_nonempty _ _ _ _ _ hc
  · intro e he
    unfold process_image
    rw [he]

/-- Witness for C2 at a concrete failing decode. -/
theorem C2_witness :
    process_image ⟨85, 480, 800, false, 3 / 20⟩ none [7, 8] ≠ []
    ∧ (∀ e, process_image_core ⟨85, 480, 800, false, 3 / 20⟩ none [7, 8] = .error e →
        process_image ⟨85, 480, 800, false, 3 / 20⟩ none [7, 8] =
          [⟨OutData.raw [7, 8], []⟩]) :=
  C2_process_image_never_raises _ _ _ (by norm_num) (by norm_num)

/-- Uniform scale factor of the normal path,
`min(max_width / orig_w, max_height / orig_h)` (line 363). -/
def normalScale (cfg : Config) (w h : Nat) : ℚ :=
  min ((cfg.max_width : ℚ) / (w : ℚ)) ((cfg.max_height : ℚ) / (h : ℚ))

/-- Lower bound for the truncated scaled dimension. -/
theorem pyInt_toNat_cast_le {q : ℚ} (hq : 0 ≤ q) : (((pyInt q).toNat : ℚ)) ≤ q := by
  rw [pyInt_of_nonneg hq]
  have h0 : (0 : Int) ≤ ⌊q⌋ := Int.floor_nonneg.mpr hq
  calc ((⌊q⌋.toNat : ℚ)) = ((⌊q⌋ : ℚ)) := by exact_mod_cast Int.toNat_of_nonneg h0
    _ ≤ q := Int.floor_le q

/-- Upper bound for the truncated scaled dimension. -/
theorem lt_pyInt_toNat_add_one {q : ℚ} (hq : 0 ≤ q) : q < ((pyInt q).toNat : ℚ) + 1 := by
  rw [pyInt_of_nonneg hq]
  have h0 : (0 : Int) ≤ ⌊q⌋ := Int.floor_nonneg.mpr hq
  have := Int.lt_floor_add_one q
  have hc : ((⌊q⌋.toNat : ℚ)) = ((⌊q⌋ : ℚ)) := by exact_mod_cast Int.toNat_of_nonneg h0
  rw [hc]
  exact_mod_cast this

/-- Truncation stays below any natural bound dominating the rational. -/
theorem pyInt_toNat_le_of_le {q : ℚ} (hq : 0 ≤ q) {n : Nat} (h : q ≤ (n : ℚ)) :
    (pyInt q).toNat ≤ n := by
  rw [pyInt_of_nonneg hq]
  rw [Int.toNat_le]
  calc ⌊q⌋ ≤ ⌊(n : ℚ)⌋ := Int.floor_le_floor h
    _ = (n : Int) := Int.floor_natCast n

/-- C6: the normal (non-split) path leaves an already fitting image unscaled
and otherwise scales it uniformly by `min(max_width/w, max_height/h)` with
both dimensions rounded down, so the result fits the screen bounds and each
dimension is within one pixel of the exact scaled value; in both cases
exactly one part with an empty suffix is produced. -/
theorem C6_normal_path (cfg : Config) (img : PILImage) (w h : Nat)
    (hw : 0 < w) (hh : 0 < h) :
    (w ≤ cfg.max_width ∧ h ≤ cfg.max_height →
      process_normal cfg img w h = .ok [⟨OutData.jpeg img cfg.jpeg_quality, []⟩])
    ∧ (¬(w ≤ cfg.max_width ∧ h ≤ cfg.max_height) →
        process_normal cfg img w h =
          .ok [⟨OutData.jpeg (PILImage.resize img
              (pyInt ((w : ℚ) * normalScale cfg w h)).toNat
              (pyInt ((h : ℚ) * normalScale cfg w h)).toNat) cfg.jpeg_quality, []⟩]
        ∧ (pyInt ((w : ℚ) * normalScale cfg w h)).toNat ≤ cfg.max_width
        ∧ (pyInt ((h : ℚ) * normalScale cfg w h)).toNat ≤ cfg.max_height
        ∧ (((pyInt ((w : ℚ) * normalScale cfg w h)).toNat : ℚ) ≤ (w : ℚ) * normalScale cfg w h
          ∧ (w : ℚ) * normalScale cfg w h < ((pyInt ((w : ℚ) * normalScale cfg w h)).toNat : ℚ) + 1)
        ∧ (((pyInt ((h : ℚ) * normalScale cfg w h)).toNat : ℚ) ≤ (h : ℚ) * normalScale cfg w h
          ∧ (h : ℚ) * normalScale cfg w h < ((pyInt ((h : ℚ) * normalScale cfg w h)).toNat : ℚ) + 1)) := by
  have hwq : (0 : ℚ) < (w : ℚ) := by exact_mod_cast hw
  have hhq : (0 : ℚ) < (h : ℚ) := by exact_mod_cast hh
  have hs0 : 0 ≤ normalScale cfg w h := by
    unfold normalScale
    exact le_min (div_nonneg (by positivity) hwq.le) (div_nonneg (by positivity) hhq.le)
  have hws : 0 ≤ (w : ℚ) * normalScale cfg w h := mul_nonneg hwq.le hs0
  have hhs : 0 ≤ (h : ℚ) * normalScale cfg w h := mul_nonneg hhq.le hs0
  have hwb : (w : ℚ) * normalScale cfg w h ≤ (cfg.max_width : ℚ) := by
    calc (w : ℚ) * normalScale cfg w h
        ≤ (w : ℚ) * ((cfg.max_width : ℚ) / (w : ℚ)) :=
          mul_le_mul_of_nonneg_left (min_le_left _ _) hwq.le
      _ = (cfg.max_width : ℚ) := by
          rw [mul_comm]; exact div_mul_cancel₀ _ hwq.ne'
  have hhb : (h : ℚ) * normalScale cfg w h ≤ (cfg.max_height : ℚ) := by
    calc (h : ℚ) * normalScale cfg w h
        ≤ (h : ℚ) * ((cfg.max_height : ℚ) / (h : ℚ)) :=
          mul_le_mul_of_nonneg_left (min_le_right _ _) hhq.le
      _ = (cfg.max_height : ℚ) := by
          rw [mul_comm]; exact div_mul_cancel₀ _ hhq.ne'
  constructor
  · intro hfit
    simp only [process_normal, if_pos hfit]
  · intro hnofit
    refine ⟨?_, pyInt_toNat_le_of_le hws hwb, pyInt_toNat_le_of_le hhs hhb,
      ⟨pyInt_toNat_cast_le hws, lt_pyInt_toNat_add_one hws⟩,
      ⟨pyInt_toNat_cast_le hhs, lt_pyInt_toNat_add_one hhs⟩⟩
    simp only [process_normal, if_neg hnofit, normalScale]
    rw [if_neg (by omega)]

/-- Witness for C6 at a concrete oversized image. -/
theorem C6_witness :
    process_normal ⟨85, 480, 800, false, 3 / 20⟩ (.decoded 1600 1000 .RGB []) 1600 1000 =
      .ok [⟨OutData.jpeg (PILImage.resize (.decoded 1600 1000 .RGB []) 480 300) 85, []⟩] := by
  have hmain := (C6_normal_path ⟨85, 480, 800, false, 3 / 20⟩ (.decoded 1600 1000 .RGB [])
    1600 1000 (by norm_num) (by norm_num)).2 (by norm_num)
  rw [hmain.1]
  norm_num [normalScale, pyInt, min_def]
  decide

/-- Overlap in pixels of the split loop, `int(max_w * self.overlap)` (line 398). -/
def overlapPx (cfg : Config) : Int := pyInt ((cfg.max_width : ℚ) * cfg.overlap)

/-- Step of the split loop, `max_w - overlap_px` (line 399). -/
def stepPx (cfg : Config) : Int := (cfg.max_width : Int) - overlapPx cfg

/-- Tile count of the split loop, the ceiling-style integer division
`(rot_w - overlap_px + step - 1) // step` (line 400). -/
def splitNumParts (cfg : Config) (rotW : Nat) : Int :=
  Int.fdiv ((rotW : Int) - overlapPx cfg + stepPx cfg - 1) (stepPx cfg)

/-- Width of the rotated image in the split-rotate path: the rescaled height
`int(orig_h * (max_height / orig_w))` becomes the width after the 90-degree
rotation (lines 376-384). -/
def rotatedWidth (cfg : Config) (w h : Nat) : Nat :=
  (pyInt ((h : ℚ) * ((cfg.max_height : ℚ) / (w : ℚ)))).toNat

/-- Bounds on the split loop parameters: with a positive screen width and an
overlap fraction in `[0, 1)`, the overlap is non-negative and the step is
between 1 and the screen width. -/
theorem split_step_bounds (cfg : Config) (hmw : 0 < cfg.max_width) (h0 : 0 ≤ cfg.overlap)
    (h1 : cfg.overlap < 1) :
    0 ≤ overlapPx cfg ∧ 1 ≤ stepPx cfg ∧ stepPx cfg ≤ (cfg.max_width : Int) := by
  have hmq : (0 : ℚ) < (cfg.max_width : ℚ) := by exact_mod_cast hmw
  have hprod : (0 : ℚ) ≤ (cfg.max_width : ℚ) * cfg.overlap := mul_nonneg hmq.le h0
  have hlt : (cfg.max_width : ℚ) * cfg.overlap < (cfg.max_width : ℚ) := by nlinarith
  unfold stepPx overlapPx
  rw [pyInt_of_nonneg hprod]
  have hfl : ⌊(cfg.max_width : ℚ) * cfg.overlap⌋ < (cfg.max_width : Int) := by
    rw [Int.floor_lt]
    push_cast
    exact hlt
  have h2 := Int.floor_nonneg.mpr hprod
  omega

/-- Characterization of the tile count: it is at least 2 whenever the rotated
width exceeds the screen width, and `num_parts * step` covers
`rot_w - overlap_px` without exceeding it by a full step. -/
theorem split_np_bounds (cfg : Config) (rotW : Nat) (hmw : 0 < cfg.max_width)
    (h0 : 0 ≤ cfg.overlap) (h1 : cfg.overlap < 1) (hlt : cfg.max_width < rotW) :
    2 ≤ splitNumParts cfg rotW
    ∧ (rotW : Int) - overlapPx cfg ≤ splitNumParts cfg rotW * stepPx cfg
    ∧ splitNumParts cfg rotW * stepPx cfg ≤ (rotW : Int) - overlapPx cfg + stepPx cfg - 1 := by
  obtain ⟨ho0, hs1, hsM⟩ := split_step_bounds cfg hmw h0 h1
  have hrt : (cfg.max_width : Int) < (rotW : Int) := by exact_mod_cast hlt
  unfold splitNumParts
  rw [Int.fdiv_eq_ediv _ (by omega)]
  have hub := Int.ediv_mul_le ((rotW : Int) - overlapPx cfg + stepPx cfg - 1)
    (show stepPx cfg ≠ 0 by omega)
  have hlb := Int.lt_ediv_add_one_mul_self ((rotW : Int) - overlapPx cfg + stepPx cfg - 1)
    (show 0 < stepPx cfg by omega)
  set s := stepPx cfg with hs
  set q := ((rotW : Int) - overlapPx cfg + s - 1) / s with hq
  have hf1 : (rotW : Int) - overlapPx cfg ≤ q * s := by nlinarith
  have hf2 : q * s ≤ (rotW : Int) - overlapPx cfg + s - 1 := by nlinarith
  have hA : s + 1 ≤ (rotW : Int) - overlapPx cfg := by
    have : s = (cfg.max_width : Int) - overlapPx cfg := hs
    omega
  have hq2 : 2 ≤ q := by nlinarith
  exact ⟨hq2, hf1, hf2⟩

/-- Crop start offset of tile `i` with all loop parameters derived from the
configuration, as the split loop computes them. -/
def tileXsAt (cfg : Config) (rotW : Nat) (i : Nat) : Int :=
  tileX cfg.max_width rotW (stepPx cfg) (splitNumParts cfg rotW) i

/-- Geometry of the split loop offsets: every tile fits inside the rotated
image at full screen width, offsets strictly decrease, the last offset is 0,
and the tiles jointly cover every pixel column of the rotated image. -/
theorem tileX_cover (cfg : Config) (rotW : Nat) (hmw : 0 < cfg.max_width)
    (h0 : 0 ≤ cfg.overlap) (h1 : cfg.overlap < 1) (hlt : cfg.max_width < rotW) :
    (∀ i, i < (splitNumParts cfg rotW).toNat →
      0 ≤ tileXsAt cfg rotW i ∧ tileXsAt cfg rotW i + (cfg.max_width : Int) ≤ (rotW : Int))
    ∧ (∀ i, i + 1 < (splitNumParts cfg rotW).toNat →
        tileXsAt cfg rotW (i + 1) < tileXsAt cfg rotW i)
    ∧ tileXsAt cfg rotW ((splitNumParts cfg rotW).toNat - 1) = 0
    ∧ (∀ c : Int, 0 ≤ c → c < (rotW : Int) →
        ∃ i, i < (splitNumParts cfg rotW).toNat ∧ tileXsAt cfg rotW i ≤ c
          ∧ c < tileXsAt cfg rotW i + (cfg.max_width : Int)) := by
  obtain ⟨ho0, hs1, hsM⟩ := split_step_bounds cfg hmw h0 h1
  obtain ⟨hnp2, hnpA, hnpB⟩ := split_np_bounds cfg rotW hmw h0 h1 hlt
  have hrt : (cfg.max_width : Int) < (rotW : Int) := by exact_mod_cast hlt
  set W : Int := (cfg.max_width : Int) with hW
  set R : Int := (rotW : Int) with hR
  set o : Int := overlapPx cfg with ho
  set s : Int := stepPx cfg with hs
  set np : Int := splitNumParts cfg rotW with hnp
  have hWo : s = W - o := hs
  -- value of a non-last offset, and its positivity
  have hnla : ∀ i : Nat, (i : Int) ≤ np - 2 →
      tileXsAt cfg rotW i = R - W - (i : Int) * s ∧ 1 ≤ R - W - (i : Int) * s := by
    intro i hi
    have hprod : (i : Int) * s ≤ (np - 2) * s :=
      mul_le_mul_of_nonneg_right hi (by omega)
    have hkey : (np - 2) * s ≤ R - W - 1 := by
      have hexp : (np - 2) * s = np * s - 2 * s := by ring
      omega
    have hpos : 1 ≤ R - W - (i : Int) * s := by omega
    have hne : (i : Int) ≠ np - 1 := by omega
    refine ⟨?_, hpos⟩
    unfold tileXsAt tileX
    rw [if_neg hne, ← hW, ← hR, ← hs]
    exact max_eq_right (by omega)
  have hlast : ∀ i : Nat, (i : Int) = np - 1 → tileXsAt cfg rotW i = 0 := by
    intro i hi
    unfold tileXsAt tileX
    rw [if_pos hi]
    simp
  have hnpn : ((np.toNat : Int)) = np := Int.toNat_of_nonneg (by omega)
  refine ⟨?_, ?_, ?_, ?_⟩
  · intro i hi
    have hilt : (i : Int) < np := by omega
    by_cases hc : (i : Int) = np - 1
    · rw [hlast i hc]
      constructor
      · omega
      · omega
    · have hle : (i : Int) ≤ np - 2 := by omega
      obtain ⟨hval, hpos⟩ := hnla i hle
      rw [hval]
      have : 0 ≤ (i : Int) * s := mul_nonneg (by positivity) (by omega)
      constructor
      · omega
      · omega
  · intro i hi
    have hi1 : ((i : Int) + 1) < np := by
      have : ((i + 1 : Nat) : Int) < np := by omega
      push_cast at this
      omega
    by_cases hc : ((i + 1 : Nat) : Int) = np - 1
    · rw [hlast (i + 1) hc]
      have hle : (i : Int) ≤ np - 2 := by push_cast at hc; omega
      obtain ⟨hval, hpos⟩ := hnla i hle
      omega
    · have hle1 : ((i + 1 : Nat) : Int) ≤ np - 2 := by
        have : ((i + 1 : Nat) : Int) < np := by omega
        omega
      have hle : (i : Int) ≤ np - 2 := by push_cast at hle1 ⊢; omega
      obtain ⟨hval1, _⟩ := hnla (i + 1) hle1
      obtain ⟨hval, _⟩ := hnla i hle
      rw [hval1, hval]
      have hip : ((i + 1 : Nat) : Int) = (i : Int) + 1 := by push_cast; ring
      rw [hip]
      nlinarith
  · apply hlast
    omega
  · intro c hc0 hcR
    by_cases hD : R - W - c ≤ 0
    · refine ⟨0, by omega, ?_, ?_⟩
      · have h00 : ((0 : Nat) : Int) ≤ np - 2 := by omega
        obtain ⟨hval, _⟩ := hnla 0 h00
        rw [hval]
        push_cast
        omega
      · have h00 : ((0 : Nat) : Int) ≤ np - 2 := by omega
        obtain ⟨hval, _⟩ := hnla 0 h00
        rw [hval]
        push_cast
        omega
    · push_neg at hD
      set D : Int := R - W - c with hDdef
      have hD1 : 1 ≤ D := by omega
      set j : Int := (D + s - 1) / s with hj
      have hjub := Int.ediv_mul_le (D + s - 1) (show s ≠ 0 by omega)
      have hjlb := Int.lt_ediv_add_one_mul_self (D + s - 1) (show 0 < s by omega)
      have hjs1 : D ≤ j * s := by nlinarith
      have hjs2 : j * s ≤ D + s - 1 := by nlinarith
      have hj1 : 1 ≤ j := by nlinarith
      have hjnp : j < np := by
        have hDle : D ≤ R - W := by omega
        have hWnp : R - W ≤ (np - 1) * s := by
          have : (np - 1) * s = np * s - s := by ring
          omega
      -- j * s ≤ D + s - 1 ≤ (np-1)*s + s - 1 = np*s - 1 < np*s
        have h3 : j * s < np * s := by
          have : (np - 1) * s = np * s - s := by ring
          omega
        by_contra hcon
        push_neg at hcon
        have : np * s ≤ j * s := mul_le_mul_of_nonneg_right hcon (by omega)
        omega
      refine ⟨j.toNat, by omega, ?_, ?_⟩
      · by_cases hcj : ((j.toNat : Nat) : Int) = np - 1
        · rw [hlast j.toNat hcj]
          omega
        · have hle : ((j.toNat : Nat) : Int) ≤ np - 2 := by
            have : (j.toNat : Int) = j := Int.toNat_of_nonneg (by omega)
            omega
          obtain ⟨hval, _⟩ := hnla j.toNat hle
          rw [hval]
          have : (j.toNat : Int) = j := Int.toNat_of_nonneg (by omega)
          rw [this]
          omega
      · by_cases hcj : ((j.toNat : Nat) : Int) = np - 1
        · rw [hlast j.toNat hcj]
          have hjeq : j = np - 1 := by
            have : (j.toNat : Int) = j := Int.toNat_of_nonneg (by omega)
            omega
          have hmin : (j - 1) * s < D := by
            have : (j - 1) * s = j * s - s := by ring
            omega
          have hnps : (np - 2) * s = np * s - 2 * s := by ring
          have : (np - 2) * s < D := by
            rw [show (np - 2 : Int) = j - 1 by omega] at *
            omega
          omega
        · have hle : ((j.toNat : Nat) : Int) ≤ np - 2 := by
            have : (j.toNat : Int) = j := Int.toNat_of_nonneg (by omega)
            omega
          obtain ⟨hval, _⟩ := hnla j.toNat hle
          rw [hval]
          have : (j.toNat : Int) = j := Int.toNat_of_nonneg (by omega)
          rw [this]
          omega

/-- C9: whenever the split-rotate path tiles (rotated width exceeding a
positive `max_width`, overlap fraction in `[0, 1)`), the path returns exactly
the loop's tiles; every tile crops a window of width exactly `max_width`, the
crop offsets strictly decrease from the first tile to the last tile which
starts at 0, and every pixel column of the rotated image lies in some tile. -/
theorem C9_split_tiling (cfg : Config) (img : PILImage) (w h : Nat)
    (hmw : 0 < cfg.max_width) (h0 : 0 ≤ cfg.overlap) (h1 : cfg.overlap < 1)
    (hw0 : ¬ w = 0) (hrot : cfg.max_width < rotatedWidth cfg w h) :
    process_split_rotate cfg img w h =
      .ok ((List.range (splitNumParts cfg (rotatedWidth cfg w h)).toNat).map
        (fun i => splitTile cfg
          (PILImage.rotate270 (PILImage.resize img cfg.max_height (rotatedWidth cfg w h)))
          (rotatedWidth cfg w h) cfg.max_height (stepPx cfg)
          (splitNumParts cfg (rotatedWidth cfg w h)) i))
    ∧ (∀ i, i < (splitNumParts cfg (rotatedWidth cfg w h)).toNat →
        splitTile cfg
          (PILImage.rotate270 (PILImage.resize img cfg.max_height (rotatedWidth cfg w h)))
          (rotatedWidth cfg w h) cfg.max_height (stepPx cfg)
          (splitNumParts cfg (rotatedWidth cfg w h)) i =
        ⟨OutData.jpeg (PILImage.crop
            (PILImage.rotate270 (PILImage.resize img cfg.max_height (rotatedWidth cfg w h)))
            (tileXsAt cfg (rotatedWidth cfg w h) i) 0
            (tileXsAt cfg (rotatedWidth cfg w h) i + (cfg.max_width : Int))
            (cfg.max_height : Int)) cfg.jpeg_quality,
          ls ("_part") ++ (toString (i + 1)).data⟩)
    ∧ (∀ i, i + 1 < (splitNumParts cfg (rotatedWidth cfg w h)).toNat →
        tileXsAt cfg (rotatedWidth cfg w h) (i + 1) < tileXsAt cfg (rotatedWidth cfg w h) i)
    ∧ tileXsAt cfg (rotatedWidth cfg w h)
        ((splitNumParts cfg (rotatedWidth cfg w h)).toNat - 1) = 0
    ∧ (∀ c : Int, 0 ≤ c → c < ((rotatedWidth cfg w h : Nat) : Int) →
        ∃ i, i < (splitNumParts cfg (rotatedWidth cfg w h)).toNat
          ∧ tileXsAt cfg (rotatedWidth cfg w h) i ≤ c
          ∧ c < tileXsAt cfg (rotatedWidth cfg w h) i + (cfg.max_width : Int)) := by
  obtain ⟨hbounds, hdec, hlast, hcover⟩ :=
    tileX_cover cfg (rotatedWidth cfg w h) hmw h0 h1 hrot
  obtain ⟨ho0, hs1, hsM⟩ := split_step_bounds cfg hmw h0 h1
  have hwidth : (PILImage.rotate270 (PILImage.resize img cfg.max_height
      (pyInt ((h : ℚ) * ((cfg.max_height : ℚ) / (w : ℚ)))).toNat)).width
      = rotatedWidth cfg w h := rfl
  have hheight : (PILImage.rotate270 (PILImage.resize img cfg.max_height
      (pyInt ((h : ℚ) * ((cfg.max_height : ℚ) / (w : ℚ)))).toNat)).height
      = cfg.max_height := rfl
  refine ⟨?_, ?_, hdec, hlast, hcover⟩
  · simp only [process_split_rotate, if_neg hw0, hwidth, hheight]
    rw [if_neg (by omega), if_neg (show ¬ ((cfg.max_width : Int) -
      pyInt ((cfg.max_width : ℚ) * cfg.overlap) = 0) from by
        have : stepPx cfg = (cfg.max_width : Int) - overlapPx cfg := rfl
        unfold overlapPx at this
        omega)]
    rfl
  · intro i hi
    obtain ⟨hx0, hxW⟩ := hbounds i hi
    simp only [splitTile]
    have hmin : min ((cfg.max_width : Int))
        (((rotatedWidth cfg w h : Nat) : Int) - tileX cfg.max_width (rotatedWidth cfg w h)
          (stepPx cfg) (splitNumParts cfg (rotatedWidth cfg w h)) i) = (cfg.max_width : Int) := by
      have hx : tileXsAt cfg (rotatedWidth cfg w h) i = tileX cfg.max_width (rotatedWidth cfg w h)
        (stepPx cfg) (splitNumParts cfg (rotatedWidth cfg w h)) i := rfl
      omega
    rw [hmin]
    rfl

/-- Witness for C9 at the concrete 1600x1000 light-novel example. -/
theorem C9_witness :
    tileXsAt ⟨85, 480, 800, true, 3 / 20⟩
      (rotatedWidth ⟨85, 480, 800, true, 3 / 20⟩ 1600 1000)
      ((splitNumParts ⟨85, 480, 800, true, 3 / 20⟩
        (rotatedWidth ⟨85, 480, 800, true, 3 / 20⟩ 1600 1000)).toNat - 1) = 0 :=
  (C9_split_tiling ⟨85, 480, 800, true, 3 / 20⟩ (.decoded 1600 1000 .RGB []) 1600 1000
    (by norm_num) (by norm_num) (by norm_num) (by norm_num)
    (by norm_num [rotatedWidth, pyInt])).2.2.2.1

/-- The decoding loop under the `ignore` handler can never reach the failure
branch: only the `strict` handler constructs an error. -/
theorem utf8DecodeGo_ignore_ok (fuel : Nat) :
    ∀ bs : List Nat, ∃ cs, utf8DecodeGo .ignore fuel bs = .ok cs := by
  induction fuel with
  | zero =>
    intro bs
    cases bs with
    | nil => exact ⟨[], rfl⟩
    | cons b rest => exact ⟨[], rfl⟩
  | succ n ih =>
    intro bs
    cases bs with
    | nil => exact ⟨[], rfl⟩
    | cons b rest =>
      simp only [utf8DecodeGo]
      rcases hafter : utf8After b rest with ⟨oc, k⟩
      cases oc with
      | some c =>
        obtain ⟨cs, hcs⟩ := ih (rest.drop k)
        refine ⟨c :: cs, ?_⟩
        simp only [hcs]
      | none =>
        obtain ⟨cs, hcs⟩ := ih (rest.drop k)
        refine ⟨cs, ?_⟩
        simp only [hcs]

/-- C8 (amended): the decoding the converter applies to text-classified
entries (`.decode('utf-8', errors='ignore')`) never raises on any byte
string: it always returns the text with malformed sequences dropped. -/
theorem C8_text_decode_never_raises (bs : List Nat) :
    pyUtf8Decode .ignore bs = .ok (decodeIgnore bs) := by
  obtain ⟨cs, hcs⟩ := utf8DecodeGo_ignore_ok bs.length bs
  unfold pyUtf8Decode decodeIgnore pyUtf8Decode
  rw [hcs]

/-- C8 counterexample: on the malformed byte string `41 FF 42` the converter's
decoding drops the bad byte (yielding "AB"), it does not replace it with
U+FFFD as the specified "invalid sequences replaced" behaviour would. -/
theorem C8_counterexample :
    decodeIgnore [0x41, 0xFF, 0x42] ≠ decodeReplaceSpec [0x41, 0xFF, 0x42]
    ∧ decodeIgnore [0x41, 0xFF, 0x42] = ls ("AB") := by
  constructor
  · decide
  · decide

/-- Raster extension alternatives of the rename pattern
`\.(png|gif|webp|bmp|jpeg)$` (lines 101-102). -/
def rasterExts : List (List Char) := [ls ("png"), ls ("gif"), ls ("webp"), ls ("bmp"), ls ("jpeg")]

/-- Extension alternatives of the image-entry pattern
`.*\.(png|gif|webp|bmp|jpg|jpeg)$` (lines 117, 282). -/
def imageExts : List (List Char) := rasterExts ++ [ls ("jpg")]

/-- Extension alternatives of the content-document pattern
`.*\.(xhtml|html|htm)$` (lines 152, 284). -/
def xhtmlExts : List (List Char) := [ls ("xhtml"), ls ("html"), ls ("htm")]

/-- Text matched by a trailing `$` up to the anchor: Python's `$` also matches
just before one final newline, so matching proceeds on the string without such
a newline. -/
def dollarBody (s : List Char) : List Char :=
  if s.getLast? == some '\n' then s.dropLast else s

/-- The final newline that a trailing `$` skips over, if any. -/
def dollarTail (s : List Char) : List Char :=
  if s.getLast? == some '\n' then ['\n'] else []

/-- Python `re.match(r'.*\.(e1|...|ek)$', s)` as a Boolean.  `.` does not
match a newline and `$` also matches just before one trailing newline, so the
string (without such a newline) must end in a dot plus one of the extensions,
with no newline anywhere before the dot.  No two of the extension sets used
by the converter are suffixes of one another, so the matching alternative is
unique when it exists. -/
def pyMatchDotExts (exts : List (List Char)) (s : List Char) : Bool :=
  exts.any (fun e =>
    endsWithL (dollarBody s) ('.' :: e) &&
    !((dollarBody s).take ((dollarBody s).length - (e.length + 1))).any (fun c => c == '\n'))

/-- Classification of a raster entry to rename,
`re.match(r'.*\.(png|gif|webp|bmp|jpeg)$', low)` (line 101). -/
def isRasterName (name : List Char) : Bool := pyMatchDotExts rasterExts (pyLower name)

/-- Classification of an image entry,
`re.match(r'.*\.(png|gif|webp|bmp|jpg|jpeg)$', low)` (lines 117, 282). -/
def isImageName (name : List Char) : Bool := pyMatchDotExts imageExts (pyLower name)

/-- Classification of a content document,
`re.match(r'.*\.(xhtml|html|htm)$', low)` (lines 152, 284). -/
def isXhtmlName (name : List Char) : Bool := pyMatchDotExts xhtmlExts (pyLower name)

/-- Classification of the package document, `low.endswith('.opf')` (line 155). -/
def isOpfName (name : List Char) : Bool := endsWithL (pyLower name) (ls (".opf"))

/-- The raster extension the anchored substitution pattern
`\.(png|gif|webp|bmp|jpeg)$` matches (case-insensitively) at the end of the
name, when one matches there. -/
def rasterExtOf (name : List Char) : Option (List Char) :=
  rasterExts.find? (fun e => endsWithL (pyLower (dollarBody name)) ('.' :: e))

/-- Stem left of the matched raster extension (original case preserved). -/
def rasterStem (name : List Char) : List Char :=
  match rasterExtOf name with
  | some e => (dollarBody name).take ((dollarBody name).length - (e.length + 1))
  | none => dollarBody name

/-- Python `re.sub(r'\.(png|gif|webp|bmp|jpeg)$', '.jpg', name, re.IGNORECASE)`
(line 102): the anchored pattern can only match the final raster extension of
the name (a trailing newline being tolerated by `$`); with no match the name
is unchanged. -/
def subRasterToJpg (name : List Char) : List Char :=
  match rasterExtOf name with
  | some e =>
    (dollarBody name).take ((dollarBody name).length - (e.length + 1))
      ++ ls (".jpg") ++ dollarTail name
  | none => name

/-- Python dict assignment `d[k] = v` on an association list: replace in
place when the key is present, append otherwise. -/
def dictInsert {α : Type} (k : List Char) (v : α) (d : List (List Char × α)) :
    List (List Char × α) :=
  if d.any (fun p => p.1 == k) then d.map (fun p => if p.1 == k then (k, v) else p)
  else d ++ [(k, v)]

/-- Python dict lookup `d.get(k)` on an association list. -/
def dictGet {α : Type} (d : List (List Char × α)) (k : List Char) : Option α :=
  (d.find? (fun p => p.1 == k)).map (fun p => p.2)

/-- Rename map built by `convert_epub` (lines 98-103): for every entry whose
name matches the raster pattern, map it to the same name with the extension
replaced by `.jpg`. -/
def buildRenamed (names : List (List Char)) : List (List Char × List Char) :=
  names.foldl
    (fun acc name => if isRasterName name then dictInsert name (subRasterToJpg name) acc
      else acc) []

/-- The claimed collision-freedom of the rename map: renamed names pairwise
distinct, and no renamed name equal to the name of any other source entry. -/
def renameMapCollisionFree (names : List (List Char)) : Prop :=
  List.Pairwise (fun a b => a ≠ b) ((buildRenamed names).map (fun p => p.2))
  ∧ ∀ p ∈ buildRenamed names, ∀ n ∈ names, n ≠ p.1 → p.2 ≠ n

/-- Lowercasing never produces a newline from a non-newline character. -/
theorem toLower_ne_newline (c : Char) (hcc : c ≠ '\n') : Char.toLower c ≠ '\n' := by
  unfold Char.toLower
  simp only []
  split_ifs with h
  · intro habs
    have h2 := congrArg Char.toNat habs
    have hv : (c.toNat + 32).isValidChar := Or.inl (by omega)
    rw [show Char.ofNat (c.toNat + 32) = Char.ofNatAux (c.toNat + 32) hv from by
      rw [Char.ofNat, dif_pos hv]] at h2
    simp [Char.ofNatAux, Char.toNat, UInt32.ofNat', UInt32.toNat, BitVec.toNat_ofNatLt] at h2
  · exact hcc

/-- Python `str.lower` commutes with trimming the final newline tolerated by
`$`: lowering does not create or destroy a trailing newline. -/
theorem pyLower_dollarBody (s : List Char) :
    pyLower (dollarBody s) = dollarBody (pyLower s) := by
  unfold dollarBody pyLower
  have hlast : (s.map Char.toLower).getLast? = s.getLast?.map Char.toLower :=
    List.getLast?_map _ s
  have hnl : ((s.map Char.toLower).getLast? == some '\n') = (s.getLast? == some '\n') := by
    rw [hlast]
    cases hc : s.getLast? with
    | none => simp
    | some c =>
      by_cases hcc : c = '\n'
      · subst hcc; rfl
      · have hne := toLower_ne_newline c hcc
        simp [hcc, hne]
  rw [hnl]
  split_ifs with h
  · exact List.map_dropLast _ s
  · rfl

/-- A name the rename pattern matches has a raster extension for the anchored
substitution to strip. -/
theorem rasterExtOf_isSome (name : List Char) (h : isRasterName name = true) :
    (rasterExtOf name).isSome := by
  unfold isRasterName pyMatchDotExts at h
  rw [List.any_eq_true] at h
  obtain ⟨e, he, hcond⟩ := h
  rw [Bool.and_eq_true] at hcond
  unfold rasterExtOf
  rw [List.find?_isSome]
  refine ⟨e, he, ?_⟩
  rw [pyLower_dollarBody]
  exact hcond.1

/-- Shape of the renamed name: stem, then `.jpg`, then the tolerated trailing
newline. -/
theorem subRasterToJpg_eq (name : List Char) (h : (rasterExtOf name).isSome) :
    subRasterToJpg name = rasterStem name ++ ls (".jpg") ++ dollarTail name := by
  obtain ⟨e, he⟩ := Option.isSome_iff_exists.mp h
  simp [subRasterToJpg, rasterStem, he]

/-- The `$`-tail is empty or a single newline. -/
theorem dollarTail_cases (s : List Char) : dollarTail s = [] ∨ dollarTail s = ['\n'] := by
  unfold dollarTail
  split_ifs <;> simp

/-- Injectivity of the renamed-name shape in the stem and the tail. -/
theorem jpg_shape_inj (a b ta tb : List Char)
    (hta : ta = [] ∨ ta = ['\n']) (htb : tb = [] ∨ tb = ['\n'])
    (h : a ++ ls (".jpg") ++ ta = b ++ ls (".jpg") ++ tb) : a = b ∧ ta = tb := by
  have hts : ta = tb := by
    rcases hta with h1 | h1 <;> rcases htb with h2 | h2 <;> subst h1 <;> subst h2 <;>
      first
      | rfl
      | (exfalso
         have hl := congrArg List.getLast? h
         simp [List.getLast?_append, ls] at hl)
  subst hts
  rw [List.append_assoc, List.append_assoc] at h
  exact ⟨List.append_cancel_right h, rfl⟩

/-- Membership in a dict after an assignment. -/
theorem mem_dictInsert {α : Type} (k : List Char) (v : α) (d : List (List Char × α))
    (p : List Char × α) (hp : p ∈ dictInsert k v d) : p = (k, v) ∨ p ∈ d := by
  unfold dictInsert at hp
  split_ifs at hp with h
  · rcases List.mem_map.mp hp with ⟨q, hq, hqe⟩
    by_cases hk : q.1 == k
    · left; rw [← hqe]; simp [hk]
    · right; rw [← hqe]; simp only [hk]; simpa using hq
  · rcases List.mem_append.mp hp with h1 | h1
    · right; exact h1
    · left; simpa using h1

/-- A dict assignment preserves distinctness of the keys. -/
theorem dictInsert_keys (α : Type) (k : List Char) (v : α) (d : List (List Char × α))
    (hd : d.Pairwise (fun p q => p.1 ≠ q.1)) :
    (dictInsert k v d).Pairwise (fun p q => p.1 ≠ q.1) := by
  unfold dictInsert
  split_ifs with h
  · rw [List.pairwise_map]
    refine hd.imp_of_mem ?_
    intro p q _ _ hne
    by_cases hpk : p.1 = k <;> by_cases hqk : q.1 = k
    · exact absurd (hpk.trans hqk.symm) hne
    · simp only [hpk, hqk, beq_self_eq_true, if_pos, beq_iff_eq, if_neg]
      exact fun habs => hqk habs.symm
    · simp only [hpk, hqk, beq_iff_eq, if_neg, beq_self_eq_true, if_pos]
      exact hpk
    · simp only [hpk, hqk, beq_iff_eq, if_neg]
      exact hne
  · rw [List.pairwise_append]
    refine ⟨hd, by simp, ?_⟩
    intro p hpd q hq
    simp only [List.mem_singleton] at hq
    subst hq
    intro habs
    rw [List.any_eq_true] at h
    exact h ⟨p, hpd, by simp [habs]⟩

/-- Every entry of the rename map comes from a matching source name and
carries the `.jpg` substitution of its key. -/
theorem buildRenamed_fold_mem (names : List (List Char)) :
    ∀ (acc : List (List Char × List Char)) (p : List Char × List Char),
      p ∈ names.foldl
        (fun acc name => if isRasterName name then dictInsert name (subRasterToJpg name) acc
          else acc) acc →
      p ∈ acc ∨ (p.1 ∈ names ∧ isRasterName p.1 = true ∧ p.2 = subRasterToJpg p.1) := by
  induction names with
  | nil => intro acc p hp; exact Or.inl hp
  | cons n ns ih =>
    intro acc p hp
    simp only [List.foldl_cons] at hp
    rcases ih _ p hp with hacc | hrest
    · by_cases hr : isRasterName n = true
      · rw [if_pos hr] at hacc
        rcases mem_dictInsert _ _ _ _ hacc with hkv | hin
        · right
          refine ⟨by simp [hkv], ?_, ?_⟩
          · rw [hkv]; exact hr
          · rw [hkv]
        · exact Or.inl hin
      · rw [if_neg hr] at hacc
        exact Or.inl hacc
    · right
      exact ⟨List.mem_cons_of_mem _ hrest.1, hrest.2⟩

/-- The rename map has pairwise distinct keys (it is a Python dict). -/
theorem buildRenamed_keys (names : List (List Char)) :
    (buildRenamed names).Pairwise (fun p q => p.1 ≠ q.1) := by
  unfold buildRenamed
  suffices hgen : ∀ (acc : List (List Char × List Char)),
      acc.Pairwise (fun p q => p.1 ≠ q.1) →
      (names.foldl
        (fun acc name => if isRasterName name then dictInsert name (subRasterToJpg name) acc
          else acc) acc).Pairwise (fun p q => p.1 ≠ q.1) by
    exact hgen [] (by simp)
  induction names with
  | nil => intro acc h; exact h
  | cons n ns ih =>
    intro acc h
    simp only [List.foldl_cons]
    apply ih
    by_cases hr : isRasterName n = true
    · rw [if_pos hr]; exact dictInsert_keys _ _ _ _ h
    · rw [if_neg hr]; exact h

/-- C5 counterexample: the archive with entries `a.png` and `a.jpeg` renames
both to `a.jpg`, so the rename map's range is not collision-free. -/
theorem C5_counterexample : ¬ renameMapCollisionFree [ls ("a.png"), ls ("a.jpeg")] := by
  unfold renameMapCollisionFree
  decide

/-- C5 (amended): the rename map is collision-free provided no two renamed
entries share a stem (name with its raster extension removed) and no other
source entry's name equals a renamed entry's stem with `.jpg` appended. -/
theorem C5_rename_map_collision_free (names : List (List Char))
    (hstem : ∀ p ∈ buildRenamed names, ∀ q ∈ buildRenamed names, p.1 ≠ q.1 →
      ¬(rasterStem p.1 = rasterStem q.1 ∧ dollarTail p.1 = dollarTail q.1))
    (hfresh : ∀ p ∈ buildRenamed names, ∀ n ∈ names, n ≠ p.1 →
      rasterStem p.1 ++ ls (".jpg") ++ dollarTail p.1 ≠ n) :
    renameMapCollisionFree names := by
  have hfacts : ∀ p ∈ buildRenamed names,
      p.1 ∈ names ∧ isRasterName p.1 = true ∧ p.2 = subRasterToJpg p.1 := by
    intro p hp
    rcases buildRenamed_fold_mem names [] p hp with habs | hgood
    · cases habs
    · exact hgood
  have hshape : ∀ p ∈ buildRenamed names,
      p.2 = rasterStem p.1 ++ ls (".jpg") ++ dollarTail p.1 := by
    intro p hp
    obtain ⟨_, hr, hv⟩ := hfacts p hp
    rw [hv]
    exact subRasterToJpg_eq p.1 (rasterExtOf_isSome p.1 hr)
  constructor
  · rw [List.pairwise_map]
    refine (buildRenamed_keys names).imp_of_mem ?_
    intro p q hp hq hne
    rw [hshape p hp, hshape q hq]
    intro habs
    obtain ⟨hs, ht⟩ := jpg_shape_inj _ _ _ _ (dollarTail_cases p.1) (dollarTail_cases q.1) habs
    exact hstem p hp q hq hne ⟨hs, ht⟩
  · intro p hp n hn hne
    rw [hshape p hp]
    exact hfresh p hp n hn hne

/-- Witness for C5 on an archive with distinct stems and no pre-existing
`.jpg` conflict. -/
theorem C5_witness :
    renameMapCollisionFree [ls ("img/a.png"), ls ("img/b.webp"), ls ("ch1.xhtml")] :=
  C5_rename_map_collision_free _ (by decide) (by decide)

/-- Occurrence test on a cons: either the needle starts here or it occurs in
the tail. -/
theorem containsSub_cons (c : Char) (r p : List Char) :
    containsSub (c :: r) p = (leadsWith p (c :: r) || containsSub r p) := by
  unfold containsSub
  rw [show (c :: r).length + 1 = ((r.length + 1) + 1) from by simp]
  rw [List.range_succ_eq_map]
  simp only [List.any_cons, List.drop_zero, List.any_map, Function.comp]
  congr 1

/-- Fuel irrelevance of the replacement loop above the text length. -/
theorem replLoop_fuel (o : Char) (os new : List Char) :
    ∀ (f1 : Nat) (t : List Char) (f2 : Nat), t.length ≤ f1 → t.length ≤ f2 →
      replLoop o os new f1 t = replLoop o os new f2 t := by
  intro f1
  induction f1 with
  | zero =>
    intro t f2 h1 _
    have : t = [] := List.length_eq_zero.mp (Nat.le_zero.mp h1)
    subst this
    cases f2 <;> rfl
  | succ n ih =>
    intro t f2 h1 h2
    cases t with
    | nil => cases f2 <;> rfl
    | cons c r =>
      cases f2 with
      | zero => simp at h2
      | succ m =>
        simp only [replLoop]
        split_ifs with hl
        · rw [ih (r.drop os.length) m (by simp at h1 ⊢; omega) (by simp at h2 ⊢; omega)]
        · rw [ih r m (by simp at h1; omega) (by simp at h2; omega)]

/-- A successful prefix test decomposes the text. -/
theorem leadsWith_decomp (p s : List Char) (h : leadsWith p s = true) :
    s = p ++ s.drop p.length := by
  unfold leadsWith at h
  rw [beq_iff_eq] at h
  conv_lhs => rw [← List.take_append_drop p.length s]
  rw [h]

/-- Prepending the needle itself always passes the prefix test. -/
theorem leadsWith_self_append (p rest : List Char) : leadsWith p (p ++ rest) = true := by
  unfold leadsWith
  rw [beq_iff_eq]
  exact List.take_left p rest

/-- Python `str.replace` with no exact occurrence of the needle is the
identity. -/
theorem pythonReplace_no_occ (old new t : List Char) (h : old ≠ [])
    (hno : containsSub t old = false) : pythonReplace old new t = t := by
  obtain ⟨o, os, rfl⟩ : ∃ o os, old = o :: os := by
    cases old with
    | nil => exact absurd rfl h
    | cons o os => exact ⟨o, os, rfl⟩
  unfold pythonReplace
  suffices hgen : ∀ fuel t2, t2.length ≤ fuel → containsSub t2 (o :: os) = false →
      replLoop o os new fuel t2 = t2 by
    exact hgen t.length t (le_refl _) hno
  intro fuel
  induction fuel with
  | zero =>
    intro t2 hl _
    have : t2 = [] := List.length_eq_zero.mp (Nat.le_zero.mp hl)
    subst this
    rfl
  | succ n ih =>
    intro t2 hl hno2
    cases t2 with
    | nil => rfl
    | cons c r =>
      rw [containsSub_cons, Bool.or_eq_false_iff] at hno2
      simp only [replLoop, hno2.1, Bool.false_eq_true, if_false]
      rw [ih r (by simp at hl; omega) hno2.2]

/-- Python `str.replace` rewrites the leftmost exact occurrence of the needle
and continues on the remainder: full left-to-right non-overlapping
replacement of every exact-case occurrence. -/
theorem pythonReplace_leftmost (old new t : List Char) (h : old ≠ [])
    (hyes : containsSub t old = true) :
    ∃ pre post, t = pre ++ old ++ post
      ∧ (∀ pre2 post2, t = pre2 ++ old ++ post2 → pre.length ≤ pre2.length)
      ∧ pythonReplace old new t = pre ++ new ++ pythonReplace old new post := by
  obtain ⟨o, os, rfl⟩ : ∃ o os, old = o :: os := by
    cases old with
    | nil => exact absurd rfl h
    | cons o os => exact ⟨o, os, rfl⟩
  induction t with
  | nil =>
    exfalso
    unfold containsSub leadsWith at hyes
    simp at hyes
  | cons c r ih =>
    rw [containsSub_cons] at hyes
    by_cases hl : leadsWith (o :: os) (c :: r) = true
    · refine ⟨[], (c :: r).drop (o :: os).length, ?_, ?_, ?_⟩
      · simpa using leadsWith_decomp _ _ hl
      · intro pre2 post2 _
        simp
      · unfold pythonReplace
        simp only [replLoop, hl, if_pos]
        have hdrop : (c :: r).drop (o :: os).length = r.drop os.length := by simp
        rw [hdrop]
        simp only [List.nil_append]
        congr 1
        exact replLoop_fuel o os new r.length (r.drop os.length) (r.drop os.length).length
          (by simp) (le_refl _)
    · rw [Bool.or_eq_true_iff] at hyes
      rcases hyes with habs | hr
      · exact absurd habs hl
      · obtain ⟨pre, post, heq, hmin, heqn⟩ := ih hr
        refine ⟨c :: pre, post, by simp [heq], ?_, ?_⟩
        · intro pre2 post2 h2
          cases pre2 with
          | nil =>
            exfalso
            simp only [List.nil_append] at h2
            rw [h2] at hl
            exact hl (leadsWith_self_append _ _)
          | cons c2 r2 =>
            have : r = r2 ++ (o :: os) ++ post2 := by
              have := congrArg List.tail h2
              simpa using this
            have := hmin r2 post2 this
            simp only [List.length_cons]
            omega
        · unfold pythonReplace at heqn ⊢
          simp only [List.length_cons, replLoop, hl, Bool.false_eq_true, if_false,
            List.cons_append]
          congr 1

/-- Abstract syntax of the regular expressions the converter uses: literals,
character classes (positive or negated), the `.` and `$` behaviours are
expressible via classes and `eos`, greedy star and option, capture groups,
alternation and sequencing. -/
inductive RE where
  | eps
  | lit (cs : List Char)
  | cls (neg : Bool) (set : List Char)
  | eos
  | star (r : RE)
  | opt (r : RE)
  | grp (r : RE)
  | alt (a b : RE)
  | seq (a b : RE)

/-- Size of a regular expression, used to budget matcher fuel. -/
def sizeRE : RE → Nat
  | .eps => 1
  | .lit _ => 1
  | .cls _ _ => 1
  | .eos => 1
  | .star r => sizeRE r + 1
  | .opt r => sizeRE r + 1
  | .grp r => sizeRE r + 1
  | .alt a b => sizeRE a + sizeRE b + 1
  | .seq a b => sizeRE a + sizeRE b + 1

/-- Character comparison, lowercasing both sides under `re.IGNORECASE`. -/
def matchChar (ci : Bool) (a b : Char) : Bool :=
  if ci then Char.toLower a == Char.toLower b else a == b

/-- Literal prefix test at the head of `s`. -/
def matchLit (ci : Bool) : List Char → List Char → Bool
  | [], _ => true
  | _ :: _, [] => false
  | c :: cs, d :: ds => matchChar ci c d && matchLit ci cs ds

/-- Character class test (Python semantics: a negated class also matches a
newline; `.` is the negated class of the newline alone). -/
def classMatch (ci : Bool) (neg : Bool) (set : List Char) (c : Char) : Bool :=
  let mem := set.any (fun sc => matchChar ci sc c)
  if neg then !mem else mem

/-- Backtracking matcher.  `reMatch ci fuel re s` lists the ways `re` can
match a prefix of `s` as pairs (consumed length, captured groups in opening
order), in Python's preference order: alternation left first, star and option
greedy.  Fuel decreases on every recursive call so the definition is
structural (and so kernel-reducible); the wrappers below always supply fuel
larger than any possible recursion depth. -/
def reMatch (ci : Bool) : Nat → RE → List Char → List (Nat × List (List Char))
  | 0, _, _ => []
  | fuel + 1, re, s =>
    match re with
    | .eps => [(0, [])]
    | .lit cs => if matchLit ci cs s then [(cs.length, [])] else []
    | .cls neg set =>
      match s with
      | [] => []
      | c :: _ => if classMatch ci neg set c then [(1, [])] else []
    | .eos => if s = [] ∨ s = ['\n'] then [(0, [])] else []
    | .alt a b => reMatch ci fuel a s ++ reMatch ci fuel b s
    | .seq a b =>
      (reMatch ci fuel a s).flatMap (fun pr =>
        (reMatch ci fuel b (s.drop pr.1)).map (fun qr => (pr.1 + qr.1, pr.2 ++ qr.2)))
    | .opt r => reMatch ci fuel r s ++ [(0, [])]
    | .grp r => (reMatch ci fuel r s).map (fun pr => (pr.1, s.take pr.1 :: pr.2))
    | .star r =>
      ((reMatch ci fuel r s).filter (fun pr => pr.1 ≠ 0)).flatMap (fun pr =>
        (reMatch ci fuel (.star r) (s.drop pr.1)).map
          (fun qr => (pr.1 + qr.1, pr.2 ++ qr.2))) ++ [(0, [])]

/-- Fuel that dominates the matcher's recursion depth on `re` against `s`:
every level of structural descent is bounded by the size of `re`, and every
star iteration consumes at least one character. -/
def reFuel (re : RE) (s : List Char) : Nat := (sizeRE re + 2) * (s.length + 2)

/-- Python match attempt at the current position: the backtracker's first
answer. -/
def reTry (ci : Bool) (re : RE) (s : List Char) : Option (Nat × List (List Char)) :=
  (reMatch ci (reFuel re s) re s).head?

/-- Python `re.search`: the leftmost position with a match, with the match
there. -/
def reSearchFrom (ci : Bool) (re : RE) : Nat → List Char → Option (Nat × Nat × List (List Char))
  | pos, s =>
    match reTry ci re s with
    | some (n, caps) => some (pos, n, caps)
    | none =>
      match s with
      | [] => none
      | _ :: rest => reSearchFrom ci re (pos + 1) rest

/-- Python `re.search` from the start of the text. -/
def reSearch (ci : Bool) (re : RE) (s : List Char) : Option (Nat × Nat × List (List Char)) :=
  reSearchFrom ci re 0 s

/-- Replacement loop of Python `re.sub` with a replacement function of the
whole match and the captures.  Python (3.7+) semantics on a zero-width match:
emit the replacement, copy one character, continue. -/
def reSubGo (ci : Bool) (re : RE) (repl : List Char → List (List Char) → List Char) :
    Nat → List Char → List Char
  | _, [] =>
    match reTry ci re [] with
    | some (_, caps) => repl [] caps
    | none => []
  | 0, s => s
  | fuel + 1, c :: rest =>
    match reTry ci re (c :: rest) with
    | some (n, caps) =>
      if n = 0 then repl [] caps ++ c :: reSubGo ci re repl fuel rest
      else repl ((c :: rest).take n) caps ++ reSubGo ci re repl fuel ((c :: rest).drop n)
    | none => c :: reSubGo ci re repl fuel rest

/-- Python `re.sub` with a replacement function. -/
def reSub (ci : Bool) (re : RE) (repl : List Char → List (List Char) → List Char)
    (s : List Char) : List Char :=
  reSubGo ci re repl s.length s

/-- Sequencing of a pattern list. -/
def reSeqs (rs : List RE) : RE := rs.foldr .seq .eps

/-- Greedy `+` as `r` followed by `r*`. -/
def rePlus (r : RE) : RE := .seq r (.star r)

/-- Python `\s` character set. -/
def wsChars : List Char := [' ', '\t', '\n', '\x0b', '\x0c', '\r']

/-- Both quote characters, the class `["\']`. -/
def quoteChars : List Char := ['"', '\'']

/-- Negated character class shorthand. -/
def non (set : List Char) : RE := .cls true set

/-- Positive character class shorthand. -/
def one (set : List Char) : RE := .cls false set

/-- Python `re.sub(r'\.[^.]+$', '', name)` (lines 121, 248): `[^.]` also
matches a newline, so the greedy class always reaches the true end of the
string; the pattern can only match at the last dot when at least one
character follows it, and then strips from that dot on. -/
def pyStripLastExt (name : List Char) : List Char :=
  match name.reverse.findIdx? (fun c => c == '.') with
  | some r => if r = 0 then name else name.take (name.length - 1 - r)
  | none => name

/-- Python `re.sub(r'\.[^.]+$', '.jpg', name)` (line 125). -/
def pySubLastExtJpg (name : List Char) : List Char :=
  match name.reverse.findIdx? (fun c => c == '.') with
  | some r => if r = 0 then name else name.take (name.length - 1 - r) ++ ls (".jpg")
  | none => name

/-- Pattern `xlink:href=["\']([^"\']+)["\']` of `_fix_svg_cover` (line 429). -/
def xlinkPat : RE :=
  reSeqs [.lit (ls ("xlink:href=")), one quoteChars, .grp (rePlus (non quoteChars)),
    one quoteChars]

/-- Canonical cover document emitted by `_fix_svg_cover` (lines 434-439),
with the discovered image reference inserted. -/
def svgCoverDoc (img_src : List Char) : List Char :=
  ls ("<?xml version=\"1.0\" encoding=\"utf-8\"?>\n<!DOCTYPE html>\n<html xmlns=\"http://www.w3.org/1999/xhtml\" xmlns:epub=\"http://www.idpf.org/2007/ops\" lang=\"en\" xml:lang=\"en\">\n<head><meta content=\"text/html; charset=UTF-8\" http-equiv=\"default-style\"/><title>Cover</title></head>\n<body><section epub:type=\"cover\"><img alt=\"Cover\" src=\"")
    ++ img_src ++ ls ("\"/></section></body>\n</html>")

/-- Faithful embedding of `EpubConverter._fix_svg_cover` (lines 419-441). -/
def fix_svg_cover (content : List Char) : List Char × Bool :=
  if !containsSub content (ls ("<svg")) || !containsSub content (ls ("xlink:href")) then
    (content, false)
  else if !containsSub content (ls ("calibre:cover"))
      && !containsSub content (ls ("name=\"cover\""))
      && !containsSub content (ls ("<title>Cover</title>")) then
    (content, false)
  else
    match reSearch false xlinkPat content with
    | none => (content, false)
    | some (_, _, caps) => (svgCoverDoc (caps.headD []), true)

/-- Cover item pattern 1 of `_ensure_cover_meta`:
`<item[^>]+id="([^"]+)"[^>]+properties="[^"]*cover-image[^"]*"`. -/
def coverPat1 : RE :=
  reSeqs [.lit (ls ("<item")), rePlus (non ['>']), .lit (ls ("id=\"")),
    .grp (rePlus (non ['"'])), .lit (ls ("\"")), rePlus (non ['>']),
    .lit (ls ("properties=\"")), .star (non ['"']), .lit (ls ("cover-image")),
    .star (non ['"']), .lit (ls ("\""))]

/-- Cover item pattern 2:
`<item[^>]+properties="[^"]*cover-image[^"]*"[^>]+id="([^"]+)"`. -/
def coverPat2 : RE :=
  reSeqs [.lit (ls ("<item")), rePlus (non ['>']), .lit (ls ("properties=\"")),
    .star (non ['"']), .lit (ls ("cover-image")), .star (non ['"']), .lit (ls ("\"")),
    rePlus (non ['>']), .lit (ls ("id=\"")), .grp (rePlus (non ['"'])), .lit (ls ("\""))]

/-- Cover item pattern 3:
`<item[^>]+id="([^"]+)"[^>]+href="[^"]*cover[^"]*"[^>]*media-type="image/`. -/
def coverPat3 : RE :=
  reSeqs [.lit (ls ("<item")), rePlus (non ['>']), .lit (ls ("id=\"")),
    .grp (rePlus (non ['"'])), .lit (ls ("\"")), rePlus (non ['>']),
    .lit (ls ("href=\"")), .star (non ['"']), .lit (ls ("cover")), .star (non ['"']),
    .lit (ls ("\"")), .star (non ['>']), .lit (ls ("media-type=\"image/"))]

/-- Cover item pattern 4:
`<item[^>]+href="[^"]*cover[^"]*"[^>]+id="([^"]+)"[^>]*media-type="image/`. -/
def coverPat4 : RE :=
  reSeqs [.lit (ls ("<item")), rePlus (non ['>']), .lit (ls ("href=\"")),
    .star (non ['"']), .lit (ls ("cover")), .star (non ['"']), .lit (ls ("\"")),
    rePlus (non ['>']), .lit (ls ("id=\"")), .grp (rePlus (non ['"'])), .lit (ls ("\"")),
    .star (non ['>']), .lit (ls ("media-type=\"image/"))]

/-- Cover item pattern 5: `<item[^>]+id="([^"]*cover[^"]*)"[^>]+media-type="image/`. -/
def coverPat5 : RE :=
  reSeqs [.lit (ls ("<item")), rePlus (non ['>']), .lit (ls ("id=\"")),
    .grp (reSeqs [.star (non ['"']), .lit (ls ("cover")), .star (non ['"'])]),
    .lit (ls ("\"")), rePlus (non ['>']), .lit (ls ("media-type=\"image/"))]

/-- Cover item pattern 6: `<item[^>]+media-type="image/[^"]*"[^>]+id="([^"]*cover[^"]*)"`. -/
def coverPat6 : RE :=
  reSeqs [.lit (ls ("<item")), rePlus (non ['>']), .lit (ls ("media-type=\"image/")),
    .star (non ['"']), .lit (ls ("\"")), rePlus (non ['>']), .lit (ls ("id=\"")),
    .grp (reSeqs [.star (non ['"']), .lit (ls ("cover")), .star (non ['"'])]),
    .lit (ls ("\""))]

/-- First capture of a search, when the pattern matches somewhere. -/
def searchGroup1 (ci : Bool) (re : RE) (t : List Char) : Option (List Char) :=
  match reSearch ci re t with
  | some (_, _, caps) => some (caps.headD [])
  | none => none

/-- Cover item id discovery of `_ensure_cover_meta` (lines 447-461): the six
patterns are tried in priority order, case-insensitively, stopping at the
first match. -/
def findCoverId (t : List Char) : Option (List Char) :=
  match searchGroup1 true coverPat1 t with
  | some v => some v
  | none =>
    match searchGroup1 true coverPat2 t with
    | some v => some v
    | none =>
      match searchGroup1 true coverPat3 t with
      | some v => some v
      | none =>
        match searchGroup1 true coverPat4 t with
        | some v => some v
        | none =>
          match searchGroup1 true coverPat5 t with
          | some v => some v
          | none => searchGroup1 true coverPat6 t

/-- Existing cover meta pattern, name first (line 467, case-sensitive):
`<meta\s+name=["\']cover["\']\s+content=["\']([^"\']+)["\']`. -/
def metaPatA : RE :=
  reSeqs [.lit (ls ("<meta")), rePlus (one wsChars), .lit (ls ("name=")), one quoteChars,
    .lit (ls ("cover")), one quoteChars, rePlus (one wsChars), .lit (ls ("content=")),
    one quoteChars, .grp (rePlus (non quoteChars)), one quoteChars]

/-- Existing cover meta pattern, content first (line 468):
`<meta\s+content=["\']([^"\']+)["\']\s+name=["\']cover["\']`. -/
def metaPatB : RE :=
  reSeqs [.lit (ls ("<meta")), rePlus (one wsChars), .lit (ls ("content=")), one quoteChars,
    .grp (rePlus (non quoteChars)), one quoteChars, rePlus (one wsChars),
    .lit (ls ("name=")), one quoteChars, .lit (ls ("cover")), one quoteChars]

/-- Rewrite target pattern, name first (line 475):
`<meta\s+name=["\']cover["\']\s+content=["\'][^"\']+["\']\s*/?>`. -/
def metaSubA : RE :=
  reSeqs [.lit (ls ("<meta")), rePlus (one wsChars), .lit (ls ("name=")), one quoteChars,
    .lit (ls ("cover")), one quoteChars, rePlus (one wsChars), .lit (ls ("content=")),
    one quoteChars, rePlus (non quoteChars), one quoteChars, .star (one wsChars),
    .opt (.lit (ls ("/"))), .lit (ls (">"))]

/-- Rewrite target pattern, content first (line 480):
`<meta\s+content=["\'][^"\']+["\']\s+name=["\']cover["\']\s*/?>`. -/
def metaSubB : RE :=
  reSeqs [.lit (ls ("<meta")), rePlus (one wsChars), .lit (ls ("content=")), one quoteChars,
    rePlus (non quoteChars), one quoteChars, rePlus (one wsChars), .lit (ls ("name=")),
    one quoteChars, .lit (ls ("cover")), one quoteChars, .star (one wsChars),
    .opt (.lit (ls ("/"))), .lit (ls (">"))]

/-- Replacement tag written by the fix branch (lines 476, 481): note the
space before the self-closing slash. -/
def metaReplTag (cover_id : List Char) : List Char :=
  ls ("<meta name=\"cover\" content=\"") ++ cover_id ++ ls ("\" />")

/-- Tag inserted before `</metadata>` when no cover meta exists (line 490):
note there is no space before the self-closing slash here. -/
def insertMetaTag (cover_id : List Char) : List Char :=
  ls ("    <meta name=\"cover\" content=\"") ++ cover_id ++ ls ("\"/>\n  </metadata>")

/-- Faithful embedding of `EpubConverter._ensure_cover_meta` (lines 443-492). -/
def ensure_cover_meta (content : List Char) : List Char × Bool :=
  match findCoverId content with
  | none => (content, false)
  | some cover_id =>
    let metaVal :=
      match searchGroup1 false metaPatA content with
      | some v => some v
      | none => searchGroup1 false metaPatB content
    match metaVal with
    | some current_value =>
      if containsSub current_value (ls ("/")) || current_value != cover_id then
        let c1 := reSub false metaSubA (fun _ _ => metaReplTag cover_id) content
        let c2 := reSub false metaSubB (fun _ _ => metaReplTag cover_id) c1
        (c2, true)
      else (content, false)
    | none =>
      (pythonReplace (ls ("</metadata>")) (insertMetaTag cover_id) content, true)

/-- One record of `split_images[orig_name]` (lines 143-147). -/
structure SplitRec where
  path : List Char
  imgName : List Char
  id : List Char
deriving DecidableEq

/-- Alternation `(?:p|div)` of the block pattern. -/
def pOrDiv : RE := .alt (.lit (ls ("p"))) (.lit (ls ("div")))

/-- Alternation `(?:jpg|jpeg|png|gif|webp|bmp)` of the OPF split pattern
(line 252), in source order. -/
def imgExtAlt : RE :=
  .alt (.lit (ls ("jpg"))) (.alt (.lit (ls ("jpeg"))) (.alt (.lit (ls ("png")))
    (.alt (.lit (ls ("gif"))) (.alt (.lit (ls ("webp"))) (.lit (ls ("bmp")))))))

/-- Alternation `(png|gif|webp|bmp)` of the media-type patterns (lines
236, 241). -/
def mtExtAlt : RE :=
  .alt (.lit (ls ("png"))) (.alt (.lit (ls ("gif"))) (.alt (.lit (ls ("webp")))
    (.lit (ls ("bmp")))))

/-- Block pattern of the split-image rewriting (lines 180-185):
`(<(?:p|div)[^>]*>\s*<span>\s*<img[^>]*src=["\'][^"\']*(?:ORIG|NEW)[^>]*/?>\s*</span>\s*</(?:p|div)>)`,
compiled with IGNORECASE and DOTALL (no `.` occurs, so DOTALL is inert). -/
def blockPattern (orig new : List Char) : RE :=
  .grp (reSeqs [.lit (ls ("<")), pOrDiv, .star (non ['>']), .lit (ls (">")),
    .star (one wsChars), .lit (ls ("<span>")), .star (one wsChars),
    .lit (ls ("<img")), .star (non ['>']), .lit (ls ("src=")), one quoteChars,
    .star (non quoteChars), .alt (.lit orig) (.lit new),
    .star (non ['>']), .opt (.lit (ls ("/"))), .lit (ls (">")),
    .star (one wsChars), .lit (ls ("</span>")), .star (one wsChars),
    .lit (ls ("</")), pOrDiv, .lit (ls (">"))])

/-- Simple img pattern of the split-image rewriting (lines 201-206):
`(<img[^>]*src=["\'])([^"\']*(?:ORIG|NEW))([^>]*/>)` with IGNORECASE. -/
def simplePattern (orig new : List Char) : RE :=
  reSeqs [.grp (reSeqs [.lit (ls ("<img")), .star (non ['>']), .lit (ls ("src=")),
      one quoteChars]),
    .grp (reSeqs [.star (non quoteChars), .alt (.lit orig) (.lit new)]),
    .grp (reSeqs [.star (non ['>']), .lit (ls ("/>"))])]

/-- Replacement of a whole matched block: one copy per tile, newline
separated, the image reference rewritten to the tile name (lines 188-196). -/
def replaceBlock (parts : List SplitRec) (orig new whole : List Char) : List Char :=
  List.intercalate (ls ("\n")) (parts.map (fun part =>
    pythonReplace new part.imgName (pythonReplace orig part.imgName whole)))

/-- Replacement of a simple img tag: one copy per tile with the `src` value
rewritten, newline separated (lines 209-217). -/
def replaceSimple (parts : List SplitRec) (orig new : List Char)
    (caps : List (List Char)) : List Char :=
  List.intercalate (ls ("\n")) (parts.map (fun part =>
    caps.getD 0 [] ++ pythonReplace new part.imgName
      (pythonReplace orig part.imgName (caps.getD 1 [])) ++ caps.getD 2 []))

/-- Media-type fix pattern, href first (lines 235-239):
`href="([^"]+\.jpg)"([^>]*)media-type="image/(png|gif|webp|bmp)"`. -/
def mtPat1 : RE :=
  reSeqs [.lit (ls ("href=\"")), .grp (reSeqs [rePlus (non ['"']), .lit (ls (".jpg"))]),
    .lit (ls ("\"")), .grp (.star (non ['>'])), .lit (ls ("media-type=\"image/")),
    .grp mtExtAlt, .lit (ls ("\""))]

/-- Replacement template `href="\1"\2media-type="image/jpeg"`. -/
def mtRepl1 (caps : List (List Char)) : List Char :=
  ls ("href=\"") ++ caps.getD 0 [] ++ ls ("\"") ++ caps.getD 1 []
    ++ ls ("media-type=\"image/jpeg\"")

/-- Media-type fix pattern, media-type first (lines 240-244):
`media-type="image/(png|gif|webp|bmp)"([^>]*)href="([^"]+\.jpg)"`. -/
def mtPat2 : RE :=
  reSeqs [.lit (ls ("media-type=\"image/")), .grp mtExtAlt, .lit (ls ("\"")),
    .grp (.star (non ['>'])), .lit (ls ("href=\"")),
    .grp (reSeqs [rePlus (non ['"']), .lit (ls (".jpg"))]), .lit (ls ("\""))]

/-- Replacement template `media-type="image/jpeg"\2href="\3"`. -/
def mtRepl2 (caps : List (List Char)) : List Char :=
  ls ("media-type=\"image/jpeg\"") ++ caps.getD 1 [] ++ ls ("href=\"")
    ++ caps.getD 2 [] ++ ls ("\"")

/-- OPF split-reference pattern (lines 251-254):
`(href=["\'][^"\']*/?)(BASE)\.(?:jpg|jpeg|png|gif|webp|bmp)(["\'])` with
IGNORECASE; `BASE` is the escaped original base name. -/
def opfSplitPattern (orig_base : List Char) : RE :=
  reSeqs [.grp (reSeqs [.lit (ls ("href=")), one quoteChars, .star (non quoteChars),
      .opt (.lit (ls ("/")))]),
    .grp (.lit orig_base), .lit (ls (".")), imgExtAlt, .grp (one quoteChars)]

/-- Basename substitution applied uniformly to content documents (lines
170-173), the package document (lines 229-232) and css/ncx entries (lines
294-297): Python `str.replace` of each old basename by its new basename. -/
def updateImageReferences (renamed : List (List Char × List Char)) (t : List Char) :
    List Char :=
  renamed.foldl (fun t2 p => pythonReplace (basenameL p.1) (basenameL p.2) t2) t

/-- Split-image reference rewriting in a content document (lines 176-219). -/
def xhtmlSplitSub (splits : List (List Char × List SplitRec)) (t : List Char) : List Char :=
  splits.foldl (fun t2 pr =>
    let orig_name := pr.1
    let parts := pr.2
    let new_name := subRasterToJpg orig_name
    let t3 := reSub true (blockPattern orig_name new_name)
      (fun whole _ => replaceBlock parts orig_name new_name whole) t2
    reSub true (simplePattern orig_name new_name)
      (fun _ caps => replaceSimple parts orig_name new_name caps) t3) t

/-- Full second-pass rewriting of one content document (lines 160-219): SVG
cover fix, rename substitution, split-image fan-out. -/
def xhtmlTransform (renamed : List (List Char × List Char))
    (splits : List (List Char × List SplitRec)) (t : List Char) : List Char :=
  xhtmlSplitSub splits (updateImageReferences renamed (fix_svg_cover t).1)

/-- Split-image reference rewriting in the package document (lines 247-264). -/
def opfSplitSub (splits : List (List Char × List SplitRec)) (t : List Char) : List Char :=
  splits.foldl (fun t2 pr =>
    let orig_base := pyStripLastExt pr.1
    let t3 := reSub true (opfSplitPattern orig_base)
      (fun _ caps => caps.getD 0 [] ++ orig_base ++ ls ("_part1.jpg") ++ caps.getD 2 []) t2
    let additions := (pr.2.drop 1).foldl (fun acc p =>
      acc ++ ls ("<item id=\"img-") ++ p.id ++ ls ("\" href=\"") ++ p.imgName
        ++ ls ("\" media-type=\"image/jpeg\"/>\n")) ([] : List Char)
    if additions.isEmpty then t3
    else pythonReplace (ls ("</manifest>")) (additions ++ ls ("</manifest>")) t3) t

/-- Full third-pass rewriting of the package document (lines 224-273):
rename substitution, media-type correction, split references and manifest
additions, cover meta repair. -/
def opfTransform (renamed : List (List Char × List Char))
    (splits : List (List Char × List SplitRec)) (t : List Char) : List Char :=
  let t1 := updateImageReferences renamed t
  let t2 := reSub false mtPat1 (fun _ caps => mtRepl1 caps) t1
  let t3 := reSub false mtPat2 (fun _ caps => mtRepl2 caps) t2
  let t4 := opfSplitSub splits t3
  let fixed := ensure_cover_meta t4
  if fixed.2 then fixed.1 else t4

/-- Compression of a destination entry: `ZIP_STORED` or `ZIP_DEFLATED`. -/
inductive ZipComp where
  | stored
  | deflated
deriving DecidableEq

/-- One entry written to the destination archive, in write order. -/
structure OutEntry where
  name : List Char
  data : OutData
  comp : ZipComp
deriving DecidableEq

/-- Names of the source archive in directory order (`zin.namelist()`);
duplicate names are possible in a zip and are kept. -/
def namelist (arch : List (List Char × List Nat)) : List (List Char) :=
  arch.map (fun e => e.1)

/-- Python `zin.read(name)`: `zipfile` resolves a name to the last entry
bearing it. -/
def readEntry (arch : List (List Char × List Nat)) (name : List Char) : List Nat :=
  match (arch.filter (fun e => e.1 == name)).getLast? with
  | some e => e.2
  | none => []

/-- Directory prefix `name[:name.rfind('/') + 1]` of a path containing a
slash (line 137). -/
def dirOf (name : List Char) : List Char :=
  name.take (name.length - (basenameL name).length)

/-- State accumulated by the first (image) pass: entries written so far, the
split-image table, the buffered content documents and the buffered package
document (last `.opf` wins, lines 155-157). -/
structure PassState where
  outs : List OutEntry
  splits : List (List Char × List SplitRec)
  xhtmls : List (List Char × List Char)
  opf : Option (List Char × List Char)

/-- One step of the first pass of `convert_epub` (lines 112-157) on one
entry name: process and write an image, or buffer a content document or the
package document. -/
def firstPassStep (cfg : Config) (decode : List Nat → Option Decoded)
    (arch : List (List Char × List Nat)) (renamed : List (List Char × List Char))
    (st : PassState) (name : List Char) : PassState :=
  if name == ls ("mimetype") then st
    else if isImageName name then
      let data := readEntry arch name
      let parts := process_image cfg (decode data) data
      let base_name := pyStripLastExt name
      if parts.length == 1 && (parts.headD ⟨OutData.raw [], []⟩).suffix == ([] : List Char)
      then
        let new_path := (dictGet renamed name).getD (pySubLastExtJpg name)
        { st with outs := st.outs
            ++ [⟨new_path, (parts.headD ⟨OutData.raw [], []⟩).data, .deflated⟩] }
      else
        let orig_name := basenameL name
        let recs := parts.map (fun part =>
          let part_name := basenameL base_name ++ part.suffix ++ ls (".jpg")
          let part_path :=
            if containsSub name (ls ("/")) then dirOf name ++ part_name else part_name
          ((⟨part_path, part_name, basenameL base_name ++ part.suffix⟩ : SplitRec),
            part.data))
        { st with
          outs := st.outs ++ recs.map (fun r => ⟨r.1.path, r.2, .deflated⟩),
          splits := dictInsert orig_name (recs.map (fun r => r.1)) st.splits }
    else if isXhtmlName name then
      { st with xhtmls := dictInsert name (decodeIgnore (readEntry arch name)) st.xhtmls }
    else if isOpfName name then
      { st with opf := some (name, decodeIgnore (readEntry arch name)) }
    else st

/-- First pass of `convert_epub` (lines 112-157) over the whole directory. -/
def firstPass (cfg : Config) (decode : List Nat → Option Decoded)
    (arch : List (List Char × List Nat)) (renamed : List (List Char × List Char)) :
    PassState :=
  (namelist arch).foldl (firstPassStep cfg decode arch renamed) ⟨[], [], [], none⟩

/-- Second pass (lines 160-222): rewrite and write every buffered content
document, in buffer order. -/
def secondPass (renamed : List (List Char × List Char))
    (splits : List (List Char × List SplitRec))
    (xhtmls : List (List Char × List Char)) : List OutEntry :=
  xhtmls.map (fun pr =>
    ⟨pr.1, OutData.raw (utf8Encode (xhtmlTransform renamed splits pr.2)), .deflated⟩)

/-- Third pass (lines 224-273): rewrite and write the buffered package
document; Python's `if opf_content:` skips both a missing package document
and one whose decoded text is empty. -/
def thirdPass (renamed : List (List Char × List Char))
    (splits : List (List Char × List SplitRec))
    (opf : Option (List Char × List Char)) : List OutEntry :=
  match opf with
  | some pr =>
    if pr.2.isEmpty then []
    else [⟨pr.1, OutData.raw (utf8Encode (opfTransform renamed splits pr.2)), .deflated⟩]
  | none => []

/-- One step of the fourth pass (lines 276-300) on one entry name: copy a
remaining entry, patching css and ncx text through the rename substitution. -/
def fourthPassStep (arch : List (List Char × List Nat))
    (renamed : List (List Char × List Char)) (acc : List OutEntry) (name : List Char) :
    List OutEntry :=
  if name == ls ("mimetype") then acc
    else if isImageName name then acc
    else if isXhtmlName name then acc
    else if isOpfName name then acc
    else
      let data := readEntry arch name
      let low := pyLower name
      let data2 :=
        if endsWithL low (ls (".css")) || endsWithL low (ls (".ncx")) then
          utf8Encode (updateImageReferences renamed (decodeIgnore data))
        else data
      acc ++ [⟨name, OutData.raw data2, .deflated⟩]

/-- Fourth pass (lines 276-300) over the whole directory. -/
def fourthPass (arch : List (List Char × List Nat))
    (renamed : List (List Char × List Char)) : List OutEntry :=
  (namelist arch).foldl (fourthPassStep arch renamed) []

/-- Mimetype entry written first, uncompressed and verbatim, when the source
has one (lines 106-109). -/
def mimetypePass (arch : List (List Char × List Nat)) : List OutEntry :=
  if (namelist arch).any (fun n => n == ls ("mimetype")) then
    [⟨ls ("mimetype"), OutData.raw (readEntry arch (ls ("mimetype"))), .stored⟩]
  else []

/-- Faithful embedding of `EpubConverter.convert_epub` (lines 62-318) at the
archive level: the destination archive as the ordered list of entries written
to it.  Statistics, logging and the filesystem paths are not modelled; the
external Pillow decoder is the parameter `decode`. -/
def convert_epub (cfg : Config) (decode : List Nat → Option Decoded)
    (arch : List (List Char × List Nat)) : List OutEntry :=
  let renamed := buildRenamed (namelist arch)
  let st := firstPass cfg decode arch renamed
  mimetypePass arch ++ st.outs ++ secondPass renamed st.splits st.xhtmls
    ++ thirdPass renamed st.splits st.opf ++ fourthPass arch renamed

/-- Decomposition given a successful suffix test. -/
theorem endsWithL_decomp (s suf : List Char) (h : endsWithL s suf = true) :
    s = s.take (s.length - suf.length) ++ suf ∧ suf.length ≤ s.length := by
  unfold endsWithL at h
  rw [Bool.and_eq_true, beq_iff_eq, decide_eq_true_iff] at h
  refine ⟨?_, h.2⟩
  conv_lhs => rw [← List.take_append_drop (s.length - suf.length) s]
  rw [h.1]

/-- The last character of a string is the last character of any of its
non-empty suffixes. -/
theorem endsWithL_getLast (s suf : List Char) (h : endsWithL s suf = true)
    (hne : suf ≠ []) : s.getLast? = suf.getLast? := by
  obtain ⟨hdec, _⟩ := endsWithL_decomp s suf h
  conv_lhs => rw [hdec]
  rw [List.getLast?_append]
  cases hsuf : suf.getLast? with
  | some c => rfl
  | none => exact absurd (List.getLast?_eq_none_iff.mp hsuf) hne

/-- Two successful suffix tests of equal length name the same suffix. -/
theorem endsWithL_same_length (s a b : List Char) (ha : endsWithL s a = true)
    (hb : endsWithL s b = true) (hl : a.length = b.length) : a = b := by
  obtain ⟨hda, hla⟩ := endsWithL_decomp s a ha
  obtain ⟨hdb, hlb⟩ := endsWithL_decomp s b hb
  have : s.drop (s.length - a.length) = a := by
    conv_lhs => rw [hda]
    rw [List.drop_append_eq_append_drop]
    simp
  have hbb : s.drop (s.length - b.length) = b := by
    conv_lhs => rw [hdb]
    rw [List.drop_append_eq_append_drop]
    simp
  rw [← this, ← hbb, hl]

/-- A longer successful suffix carries every shorter successful suffix at its
own end. -/
theorem endsWithL_nested (s a b : List Char) (ha : endsWithL s a = true)
    (hb : endsWithL s b = true) (hl : b.length ≤ a.length) : endsWithL a b = true := by
  obtain ⟨hda, hla⟩ := endsWithL_decomp s a ha
  obtain ⟨hdb, hlb⟩ := endsWithL_decomp s b hb
  unfold endsWithL
  rw [Bool.and_eq_true, beq_iff_eq, decide_eq_true_iff]
  refine ⟨?_, hl⟩
  have key : s.drop (s.length - b.length) = b := by
    conv_lhs => rw [hdb]
    rw [List.drop_append_eq_append_drop]
    simp
  have key2 : s.drop (s.length - b.length) = a.drop (a.length - b.length) := by
    conv_lhs => rw [hda]
    rw [List.drop_append_eq_append_drop]
    have h1 : (List.take (s.length - a.length) s).length = s.length - a.length := by
      rw [List.length_take]
      omega
    have h2 : (List.take (s.length - a.length) s ++ a).length - b.length
        = (s.length - a.length) + (a.length - b.length) := by
      rw [List.length_append, h1]
      omega
    rw [h2]
    have h3 : List.drop ((s.length - a.length) + (a.length - b.length))
        (List.take (s.length - a.length) s) = [] := by
      apply List.drop_eq_nil_of_le
      rw [h1]
      omega
    rw [h3, List.nil_append, h1]
    congr 1
    omega
  rw [← key2, key]

/-- Lowercasing never produces a dot from a non-dot character. -/
theorem toLower_eq_dot (c : Char) : (Char.toLower c == '.') = (c == '.') := by
  by_cases hcc : c = '.'
  · subst hcc; rfl
  · have hne : Char.toLower c ≠ '.' := by
      unfold Char.toLower
      simp only []
      split_ifs with h
      · intro habs
        have h2 := congrArg Char.toNat habs
        have hv : (c.toNat + 32).isValidChar := Or.inl (by omega)
        rw [show Char.ofNat (c.toNat + 32) = Char.ofNatAux (c.toNat + 32) hv from by
          rw [Char.ofNat, dif_pos hv]] at h2
        simp [Char.ofNatAux, Char.toNat, UInt32.ofNat', UInt32.toNat,
          BitVec.toNat_ofNatLt] at h2
        have h5 : c.toNat = c.val.toBitVec.toNat := rfl
        omega
      · exact hcc
    simp [hcc, hne]

/-- The dot test is invariant under lowering the text. -/
theorem findIdx_dot_map_toLower (m : List Char) : ∀ i : Nat,
    List.findIdx? (fun c => c == '.') (m.map Char.toLower) i
      = List.findIdx? (fun c => c == '.') m i := by
  induction m with
  | nil => intro i; rfl
  | cons c r ih =>
    intro i
    simp only [List.map_cons, List.findIdx?_cons, toLower_eq_dot, ih]

/-- Skipping a prefix with no match advances the running index. -/
theorem findIdx_append_none (p : Char → Bool) (b : List Char) : ∀ (a : List Char) (i : Nat),
    (∀ x ∈ a, p x = false) →
    List.findIdx? p (a ++ b) i = List.findIdx? p b (i + a.length) := by
  intro a
  induction a with
  | nil => intro i _; simp
  | cons c r ih =>
    intro i h
    have hc : p c = false := h c (by simp)
    rw [List.cons_append, List.findIdx?_cons, hc]
    simp only [Bool.false_eq_true, if_false]
    rw [ih (i + 1) (fun x hx => h x (by simp [hx]))]
    congr 1
    simp
    omega

/-- An image-classified name has a final extension for the `.jpg`
substitution to strip: its reverse has a dot at a positive index. -/
theorem image_name_dot (name : List Char) (h : isImageName name = true) :
    ∃ k, k ≠ 0 ∧ List.findIdx? (fun c => c == '.') name.reverse = some k := by
  unfold isImageName pyMatchDotExts at h
  rw [List.any_eq_true] at h
  obtain ⟨e, he, hcond⟩ := h
  rw [Bool.and_eq_true] at hcond
  have hend := hcond.1
  have hrw : List.findIdx? (fun c => c == '.') name.reverse
      = List.findIdx? (fun c => c == '.') ((pyLower name).reverse) := by
    unfold pyLower
    rw [← List.map_reverse]
    rw [findIdx_dot_map_toLower]
  have hcases : e = ls ("png") ∨ e = ls ("gif") ∨ e = ls ("webp") ∨ e = ls ("bmp")
      ∨ e = ls ("jpeg") ∨ e = ls ("jpg") := by
    simp only [imageExts, rasterExts, List.mem_append, List.mem_cons,
      List.not_mem_nil, or_false] at he
    tauto
  have hnodot : ∀ x ∈ e.reverse, (x == '.') = false := by
    rcases hcases with rfl | rfl | rfl | rfl | rfl | rfl <;> decide
  have hlen : e.length ≠ 0 := by
    rcases hcases with rfl | rfl | rfl | rfl | rfl | rfl <;> decide
  unfold dollarBody at hend
  by_cases hnl : ((pyLower name).getLast? == some '\n') = true
  · rw [if_pos hnl] at hend
    obtain ⟨hdec, _⟩ := endsWithL_decomp _ _ hend
    rw [beq_iff_eq] at hnl
    cases hL : (pyLower name).reverse with
    | nil =>
      exfalso
      have hnil : pyLower name = [] := by
        have h0 := congrArg List.reverse hL
        simpa using h0
      rw [hnil] at hnl
      simp at hnl
    | cons c T =>
      have hc : c = '\n' := by
        have h1 : (pyLower name).getLast? = some c := by
          rw [List.getLast?_eq_head?_reverse, hL]
          rfl
        rw [h1] at hnl
        injection hnl
      subst hc
      have hT : (pyLower name).dropLast.reverse = T := by
        have h2 : pyLower name = T.reverse ++ ['\n'] := by
          have h0 := congrArg List.reverse hL
          simpa using h0
        rw [h2, List.dropLast_concat, List.reverse_reverse]
      refine ⟨e.length + 1, by omega, ?_⟩
      rw [hrw, hL]
      rw [List.findIdx?_cons]
      rw [show (('\n' : Char) == '.') = false from rfl]
      simp only [Bool.false_eq_true, if_false]
      have hTdec : T = e.reverse
          ++ '.' :: (List.take ((pyLower name).dropLast.length - ('.' :: e).length)
            (pyLower name).dropLast).reverse := by
        rw [← hT]
        have h3 := congrArg List.reverse hdec
        rw [h3, List.reverse_append, List.reverse_cons, List.append_assoc,
          List.singleton_append]
      rw [hTdec]
      rw [findIdx_append_none _ _ _ 1 hnodot]
      rw [List.findIdx?_cons]
      simp only [show (('.' : Char) == '.') = true from rfl, if_true]
      rw [List.length_reverse]
      rw [Nat.add_comm]
  · rw [if_neg hnl] at hend
    obtain ⟨hdec, _⟩ := endsWithL_decomp _ _ hend
    refine ⟨e.length, hlen, ?_⟩
    rw [hrw]
    conv_lhs => rw [hdec]
    rw [List.reverse_append, List.reverse_cons, List.append_assoc, List.singleton_append]
    rw [findIdx_append_none _ _ _ 0 hnodot]
    rw [List.findIdx?_cons]
    simp

/-- The fallback `.jpg` substitution on an image-classified name ends in
`g`. -/
theorem pySubLastExtJpg_last (name : List Char) (h : isImageName name = true) :
    (pySubLastExtJpg name).getLast? = some 'g' := by
  obtain ⟨k, hk0, hfind⟩ := image_name_dot name h
  unfold pySubLastExtJpg
  rw [hfind]
  simp only [hk0, if_false]
  rw [List.getLast?_append]
  rfl

/-- A renamed raster name ends in `g` (plain case) or in the tolerated
newline. -/
theorem subRasterToJpg_last (name : List Char) (h : (rasterExtOf name).isSome) :
    (subRasterToJpg name).getLast? = some 'g'
    ∨ (subRasterToJpg name).getLast? = some '\n' := by
  rw [subRasterToJpg_eq name h]
  rcases dollarTail_cases name with ht | ht <;> rw [ht]
  · left
    rw [List.append_nil, List.getLast?_append]
    rfl
  · right
    rw [List.getLast?_append]
    rfl

/-- The last character of a package-document name lowers to `f`. -/
theorem opfName_last (n : List Char) (h : isOpfName n = true) :
    ∃ c, n.getLast? = some c ∧ Char.toLower c = 'f' := by
  unfold isOpfName at h
  have hlast := endsWithL_getLast _ _ h (by decide)
  have h2 : (pyLower n).getLast? = some 'f' := by
    rw [hlast]
    rfl
  unfold pyLower at h2
  rw [List.getLast?_map] at h2
  cases hc : n.getLast? with
  | none => rw [hc] at h2; simp at h2
  | some c =>
    rw [hc] at h2
    refine ⟨c, rfl, ?_⟩
    simpa using h2

/-- A package-document name is not classified as an image. -/
theorem opf_not_image (n : List Char) (ho : isOpfName n = true) : isImageName n = false := by
  by_contra habs
  rw [Bool.not_eq_false] at habs
  unfold isImageName pyMatchDotExts at habs
  rw [List.any_eq_true] at habs
  obtain ⟨e, he, hcond⟩ := habs
  rw [Bool.and_eq_true] at hcond
  unfold isOpfName at ho
  have hlast := endsWithL_getLast _ _ ho (by decide)
  have hnl : ((pyLower n).getLast? == some '\n') = false := by
    rw [hlast]
    rfl
  have hend : endsWithL (pyLower n) ('.' :: e) = true := by
    have := hcond.1
    unfold dollarBody at this
    rwa [hnl] at this
  simp only [Bool.false_eq_true, if_false] at hend
  have hcases : e = ls ("png") ∨ e = ls ("gif") ∨ e = ls ("webp") ∨ e = ls ("bmp")
      ∨ e = ls ("jpeg") ∨ e = ls ("jpg") := by
    simp only [imageExts, rasterExts, List.mem_append, List.mem_cons,
      List.not_mem_nil, or_false] at he
    tauto
  rcases hcases with rfl | rfl | rfl | rfl | rfl | rfl
  · exact absurd (endsWithL_same_length _ _ _ hend ho (by decide)) (by decide)
  · exact absurd (endsWithL_same_length _ _ _ hend ho (by decide)) (by decide)
  · exact absurd (endsWithL_nested _ _ _ hend ho (by decide)) (by decide)
  · exact absurd (endsWithL_same_length _ _ _ hend ho (by decide)) (by decide)
  · exact absurd (endsWithL_nested _ _ _ hend ho (by decide)) (by decide)
  · exact absurd (endsWithL_same_length _ _ _ hend ho (by decide)) (by decide)

/-- A package-document name is not classified as a content document. -/
theorem opf_not_xhtml (n : List Char) (ho : isOpfName n = true) : isXhtmlName n = false := by
  by_contra habs
  rw [Bool.not_eq_false] at habs
  unfold isXhtmlName pyMatchDotExts at habs
  rw [List.any_eq_true] at habs
  obtain ⟨e, he, hcond⟩ := habs
  rw [Bool.and_eq_true] at hcond
  unfold isOpfName at ho
  have hlast := endsWithL_getLast _ _ ho (by decide)
  have hnl : ((pyLower n).getLast? == some '\n') = false := by
    rw [hlast]
    rfl
  have hend : endsWithL (pyLower n) ('.' :: e) = true := by
    have := hcond.1
    unfold dollarBody at this
    rwa [hnl] at this
  have hcases : e = ls ("xhtml") ∨ e = ls ("html") ∨ e = ls ("htm") := by
    simp only [xhtmlExts, List.mem_cons, List.not_mem_nil, or_false] at he
    tauto
  rcases hcases with rfl | rfl | rfl
  · exact absurd (endsWithL_nested _ _ _ hend ho (by decide)) (by decide)
  · exact absurd (endsWithL_nested _ _ _ hend ho (by decide)) (by decide)
  · exact absurd (endsWithL_same_length _ _ _ hend ho (by decide)) (by decide)

/-- Branch predicate under which the first pass buffers the package document:
reached only past the image and content-document branches. -/
def opfBranch (name : List Char) : Bool :=
  !(name == ls ("mimetype")) && !isImageName name && !isXhtmlName name && isOpfName name

/-- On a package-document name the earlier branches never fire: the buffering
branch is equivalent to the `.opf` suffix test alone. -/
theorem opfBranch_eq (name : List Char) : opfBranch name = isOpfName name := by
  unfold opfBranch
  by_cases ho : isOpfName name = true
  · have h1 : (name == ls ("mimetype")) = false := by
      cases hm : (name == ls ("mimetype")) with
      | false => rfl
      | true =>
        rw [beq_iff_eq] at hm
        rw [hm] at ho
        exact absurd ho (by decide)
    rw [ho, h1, opf_not_image name ho, opf_not_xhtml name ho]
    rfl
  · rw [Bool.not_eq_true] at ho
    rw [ho]
    simp

/-- Package-document buffer update of one first-pass step. -/
theorem firstPassStep_opf (cfg : Config) (decode : List Nat → Option Decoded)
    (arch : List (List Char × List Nat)) (renamed : List (List Char × List Char))
    (st : PassState) (name : List Char) :
    (firstPassStep cfg decode arch renamed st name).opf
      = if opfBranch name = true then some (name, decodeIgnore (readEntry arch name))
        else st.opf := by
  unfold firstPassStep
  by_cases h1 : (name == ls ("mimetype")) = true
  · rw [if_pos h1]
    have hopf : opfBranch name = false := by
      unfold opfBranch
      rw [h1]
      rfl
    rw [hopf]
    rfl
  · rw [if_neg h1]
    have h1f : (name == ls ("mimetype")) = false := by
      cases hx : (name == ls ("mimetype")) with
      | false => rfl
      | true => exact absurd hx h1
    by_cases h2 : isImageName name = true
    · rw [if_pos h2]
      have hopf : opfBranch name = false := by
        unfold opfBranch
        rw [h2]
        simp
      rw [hopf]
      simp only [Bool.false_eq_true, if_false]
      split <;> rfl
    · rw [if_neg h2]
      have h2f : isImageName name = false := by
        cases hx : isImageName name with
        | false => rfl
        | true => exact absurd hx h2
      by_cases h3 : isXhtmlName name = true
      · rw [if_pos h3]
        have hopf : opfBranch name = false := by
          unfold opfBranch
          rw [h3]
          simp
        rw [hopf]
        rfl
      · rw [if_neg h3]
        have h3f : isXhtmlName name = false := by
          cases hx : isXhtmlName name with
          | false => rfl
          | true => exact absurd hx h3
        by_cases h4 : isOpfName name = true
        · rw [if_pos h4]
          have hopf : opfBranch name = true := by
            unfold opfBranch
            rw [h1f, h2f, h3f, h4]
            rfl
          rw [hopf]
          rfl
        · rw [if_neg h4]
          have h4f : isOpfName name = false := by
            cases hx : isOpfName name with
            | false => rfl
            | true => exact absurd hx h4
          have hopf : opfBranch name = false := by
            unfold opfBranch
            rw [h4f]
            simp
          rw [hopf]
          rfl

/-- Content-document buffer update of one first-pass step. -/
theorem firstPassStep_xhtmls (cfg : Config) (decode : List Nat → Option Decoded)
    (arch : List (List Char × List Nat)) (renamed : List (List Char × List Char))
    (st : PassState) (name : List Char) :
    ∀ pr ∈ (firstPassStep cfg decode arch renamed st name).xhtmls,
      pr ∈ st.xhtmls ∨ isXhtmlName pr.1 = true := by
  intro pr hpr
  unfold firstPassStep at hpr
  split_ifs at hpr with h1 h2 h3 h4 h5
  · exact Or.inl hpr
  · simp only [] at hpr
    split at hpr <;> exact Or.inl hpr
  · simp only [] at hpr
    split at hpr <;> exact Or.inl hpr
  · rcases mem_dictInsert _ _ _ _ hpr with hkv | hin
    · right
      rw [hkv]
      exact h4
    · exact Or.inl hin
  · exact Or.inl hpr
  · exact Or.inl hpr

/-- Appending on the left does not change a defined last character. -/
theorem getLast_append_of_some (a b : List Char) (c : Char) (h : b.getLast? = some c) :
    (a ++ b).getLast? = some c := by
  rw [List.getLast?_append, h]
  rfl

/-- A split tile name always ends in `g` (the literal `.jpg` is appended). -/
theorem partName_last (x sfx : List Char) : (x ++ sfx ++ ls (".jpg")).getLast? = some 'g' := by
  rw [List.getLast?_append, List.getLast?_append]
  rfl

/-- The destination path of a simple converted image ends in `g` or in the
tolerated newline, whether it comes from the rename map or from the fallback
substitution. -/
theorem newPath_last (arch_names : List (List Char)) (name : List Char)
    (h : isImageName name = true) :
    ((dictGet (buildRenamed arch_names) name).getD (pySubLastExtJpg name)).getLast? = some 'g'
    ∨ ((dictGet (buildRenamed arch_names) name).getD (pySubLastExtJpg name)).getLast?
        = some '\n' := by
  cases hdg : dictGet (buildRenamed arch_names) name with
  | none =>
    left
    simp only [Option.getD_none]
    exact pySubLastExtJpg_last name h
  | some v =>
    unfold dictGet at hdg
    cases hf : (buildRenamed arch_names).find? (fun p => p.1 == name) with
    | none =>
      rw [hf] at hdg
      cases hdg
    | some p =>
      rw [hf] at hdg
      have hmem := List.mem_of_find?_eq_some hf
      rcases buildRenamed_fold_mem arch_names [] p hmem with habs | ⟨_, hr, hv⟩
      · cases habs
      · have hvp : v = p.2 := by
          simp only [Option.map] at hdg
          injection hdg with h2
          exact h2.symm
        simp only [Option.getD_some]
        rw [hvp, hv]
        exact subRasterToJpg_last p.1 (rasterExtOf_isSome p.1 hr)

/-- Every entry one first-pass step writes bears a name ending in `g` or in
the tolerated newline. -/
theorem firstPassStep_outs (cfg : Config) (decode : List Nat → Option Decoded)
    (arch : List (List Char × List Nat)) (st : PassState) (name : List Char) :
    ∀ e ∈ (firstPassStep cfg decode arch (buildRenamed (namelist arch)) st name).outs,
      e ∈ st.outs ∨ e.name.getLast? = some 'g' ∨ e.name.getLast? = some '\n' := by
  intro e he
  unfold firstPassStep at he
  split_ifs at he with h1 h2 h3 h4 h5
  · exact Or.inl he
  · simp only [] at he
    split at he
    · rcases List.mem_append.mp he with hin | hnew
      · exact Or.inl hin
      · right
        simp only [List.mem_singleton] at hnew
        rw [hnew]
        exact newPath_last (namelist arch) name h2
    · rcases List.mem_append.mp he with hin | hnew
      · exact Or.inl hin
      · right
        left
        rw [List.mem_map] at hnew
        obtain ⟨r, hr, hre⟩ := hnew
        rw [List.mem_map] at hr
        obtain ⟨part, _, hpart⟩ := hr
        rw [← hre, ← hpart]
        exact getLast_append_of_some _ _ _ (partName_last _ _)
  · simp only [] at he
    split at he
    · rcases List.mem_append.mp he with hin | hnew
      · exact Or.inl hin
      · right
        simp only [List.mem_singleton] at hnew
        rw [hnew]
        exact newPath_last (namelist arch) name h2
    · rcases List.mem_append.mp he with hin | hnew
      · exact Or.inl hin
      · right
        left
        rw [List.mem_map] at hnew
        obtain ⟨r, hr, hre⟩ := hnew
        rw [List.mem_map] at hr
        obtain ⟨part, _, hpart⟩ := hr
        rw [← hre, ← hpart]
        exact partName_last _ _
  · exact Or.inl he
  · exact Or.inl he
  · exact Or.inl he

/-- The copy pass never writes an entry whose name carries the package
document suffix (such names are skipped). -/
theorem fourthPass_names (arch : List (List Char × List Nat))
    (renamed : List (List Char × List Char)) :
    ∀ e ∈ fourthPass arch renamed, isOpfName e.name = false := by
  unfold fourthPass
  suffices hgen : ∀ (names : List (List Char)) (acc : List OutEntry),
      (∀ e ∈ acc, isOpfName e.name = false) →
      ∀ e ∈ names.foldl (fourthPassStep arch renamed) acc, isOpfName e.name = false by
    exact hgen (namelist arch) [] (by simp)
  intro names
  induction names with
  | nil => intro acc h e he; exact h e he
  | cons n ns ih =>
    intro acc h e he
    simp only [List.foldl_cons] at he
    refine ih _ ?_ e he
    intro e2 he2
    unfold fourthPassStep at he2
    split_ifs at he2 with h1 h2 h3 h4
    · exact h e2 he2
    · exact h e2 he2
    · exact h e2 he2
    · exact h e2 he2
    · rcases List.mem_append.mp he2 with hin | hnew
      · exact h e2 hin
      · simp only [List.mem_singleton] at hnew
        rw [hnew]
        cases hx : isOpfName n with
        | false => rfl
        | true => exact absurd hx h4

/-- Invariants of the first pass fold: the buffered package document is the
last entry of the directory passing the buffering branch, written entries
have names ending in `g` or newline, and buffered content documents are
xhtml-classified. -/
theorem firstPass_fold (cfg : Config) (decode : List Nat → Option Decoded)
    (arch : List (List Char × List Nat)) :
    ∀ (names : List (List Char)) (st : PassState),
      ((names.foldl (firstPassStep cfg decode arch (buildRenamed (namelist arch))) st).opf
        = match (names.filter (fun n => opfBranch n)).getLast? with
          | some m => some (m, decodeIgnore (readEntry arch m))
          | none => st.opf)
      ∧ (∀ e ∈ (names.foldl (firstPassStep cfg decode arch
            (buildRenamed (namelist arch))) st).outs,
          e ∈ st.outs ∨ e.name.getLast? = some 'g' ∨ e.name.getLast? = some '\n')
      ∧ (∀ pr ∈ (names.foldl (firstPassStep cfg decode arch
            (buildRenamed (namelist arch))) st).xhtmls,
          pr ∈ st.xhtmls ∨ isXhtmlName pr.1 = true) := by
  intro names
  induction names with
  | nil =>
    intro st
    exact ⟨rfl, fun e he => Or.inl he, fun pr hpr => Or.inl hpr⟩
  | cons n ns ih =>
    intro st
    simp only [List.foldl_cons, List.filter_cons]
    obtain ⟨iho, ihe, ihx⟩ :=
      ih (firstPassStep cfg decode arch (buildRenamed (namelist arch)) st n)
    refine ⟨?_, ?_, ?_⟩
    · rw [iho]
      by_cases hb : opfBranch n = true
      · rw [if_pos hb]
        cases hfl : (List.filter (fun n => opfBranch n) ns).getLast? with
        | some m =>
          have hcons : (n :: List.filter (fun n => opfBranch n) ns).getLast? = some m := by
            rw [List.getLast?_cons, hfl]
            rfl
          rw [hcons]
        | none =>
          have hnil : List.filter (fun n => opfBranch n) ns = [] :=
            List.getLast?_eq_none_iff.mp hfl
          rw [hnil]
          have hsing : (([n]) : List (List Char)).getLast? = some n := rfl
          rw [hsing]
          simp only []
          rw [firstPassStep_opf, if_pos hb]
      · rw [if_neg hb]
        cases hfl : (List.filter (fun n => opfBranch n) ns).getLast? with
        | some m => rfl
        | none =>
          simp only []
          rw [firstPassStep_opf, if_neg hb]
    · intro e he
      rcases ihe e he with hin | hlast
      · exact firstPassStep_outs cfg decode arch st n e hin
      · exact Or.inr hlast
    · intro pr hpr
      rcases ihx pr hpr with hin | hx
      · exact firstPassStep_xhtmls cfg decode arch _ st n pr hin
      · exact Or.inr hx

/-- C10 (amended): with two or more `.opf` entries, every earlier `.opf`
entry is absent from the output, and the last one is rewritten and written
provided its decoded text is non-empty. -/
theorem C10_last_opf_wins (cfg : Config) (decode : List Nat → Option Decoded)
    (arch : List (List Char × List Nat)) (lastName : List Char)
    (hcount : 2 ≤ ((namelist arch).filter (fun n => isOpfName n)).length)
    (hlast : ((namelist arch).filter (fun n => isOpfName n)).getLast? = some lastName)
    (hne : (decodeIgnore (readEntry arch lastName)).isEmpty = false) :
    (⟨lastName, OutData.raw (utf8Encode (opfTransform (buildRenamed (namelist arch))
        (firstPass cfg decode arch (buildRenamed (namelist arch))).splits
        (decodeIgnore (readEntry arch lastName)))), .deflated⟩ : OutEntry)
      ∈ convert_epub cfg decode arch
    ∧ (∀ n ∈ namelist arch, isOpfName n = true → n ≠ lastName →
        ∀ e ∈ convert_epub cfg decode arch, e.name ≠ n) := by
  obtain ⟨hopf, houts, hxh⟩ :=
    firstPass_fold cfg decode arch (namelist arch) ⟨[], [], [], none⟩
  have hfeq : List.filter (fun n => opfBranch n) (namelist arch)
      = List.filter (fun n => isOpfName n) (namelist arch) := by
    apply List.filter_congr
    intro x _
    rw [opfBranch_eq]
  have hstopf : (firstPass cfg decode arch (buildRenamed (namelist arch))).opf
      = some (lastName, decodeIgnore (readEntry arch lastName)) := by
    show ((namelist arch).foldl (firstPassStep cfg decode arch
      (buildRenamed (namelist arch))) ⟨[], [], [], none⟩).opf = _
    rw [hopf, hfeq, hlast]
  constructor
  · unfold convert_epub
    simp only [List.mem_append]
    refine Or.inl (Or.inr ?_)
    unfold thirdPass
    rw [hstopf]
    simp only [hne, Bool.false_eq_true, if_false]
    exact List.mem_singleton.mpr rfl
  · intro n hn hno hnlast e hecv
    obtain ⟨c, hc, hcf⟩ := opfName_last n hno
    unfold convert_epub at hecv
    simp only [List.mem_append] at hecv
    rcases hecv with (((h1 | h2) | h3) | h4) | h5
    · unfold mimetypePass at h1
      split_ifs at h1 with hm
      · simp only [List.mem_singleton] at h1
        rw [h1]
        show ls ("mimetype") ≠ n
        intro habs
        rw [← habs] at hno
        exact absurd hno (by decide)
      · cases h1
    · have h2b : e ∈ ((namelist arch).foldl (firstPassStep cfg decode arch
          (buildRenamed (namelist arch))) ⟨[], [], [], none⟩).outs := h2
      rcases houts e h2b with habs | hg | hnl
      · cases habs
      · intro habs
        rw [habs, hc] at hg
        injection hg with hgc
        rw [hgc] at hcf
        exact absurd hcf (by decide)
      · intro habs
        rw [habs, hc] at hnl
        injection hnl with hgc
        rw [hgc] at hcf
        exact absurd hcf (by decide)
    · unfold secondPass at h3
      rw [List.mem_map] at h3
      obtain ⟨pr, hpr, hpre⟩ := h3
      have hprb : pr ∈ ((namelist arch).foldl (firstPassStep cfg decode arch
          (buildRenamed (namelist arch))) ⟨[], [], [], none⟩).xhtmls := hpr
      rcases hxh pr hprb with habs | hxn
      · cases habs
      · intro habs
        rw [← hpre] at habs
        simp only [] at habs
        rw [habs] at hxn
        rw [opf_not_xhtml n hno] at hxn
        cases hxn
    · unfold thirdPass at h4
      rw [hstopf] at h4
      simp only [hne, Bool.false_eq_true, if_false] at h4
      simp only [List.mem_singleton] at h4
      rw [h4]
      intro habs
      exact hnlast habs.symm
    · have := fourthPass_names arch (buildRenamed (namelist arch)) e h5
      intro habs
      rw [habs, hno] at this
      cases this

/-- C10 counterexample: with entries `a.opf` and then `b.opf` whose bytes
decode to empty text, the converter writes no package document at all, so in
particular the last `.opf` entry is not written to the destination. -/
theorem C10_counterexample :
    ((namelist [(ls ("a.opf"), [120]), (ls ("b.opf"), [])]).filter
      (fun n => isOpfName n)).length = 2
    ∧ ((convert_epub ⟨85, 480, 800, false, 3 / 20⟩ (fun _ => none)
        [(ls ("a.opf"), [120]), (ls ("b.opf"), [])]).all
        (fun e => e.name != ls ("b.opf"))) = true := by
  constructor
  · decide
  · decide

/-- Witness for C10 at a concrete archive with two package documents, the
last one non-empty. -/
theorem C10_witness :
    (⟨ls ("b.opf"), OutData.raw (utf8Encode (opfTransform
        (buildRenamed (namelist [(ls ("a.opf"), [120]), (ls ("b.opf"), [121])]))
        (firstPass ⟨85, 480, 800, false, 3 / 20⟩ (fun _ => none)
          [(ls ("a.opf"), [120]), (ls ("b.opf"), [121])]
          (buildRenamed (namelist [(ls ("a.opf"), [120]), (ls ("b.opf"), [121])]))).splits
        (decodeIgnore (readEntry [(ls ("a.opf"), [120]), (ls ("b.opf"), [121])]
          (ls ("b.opf")))))), .deflated⟩ : OutEntry)
      ∈ convert_epub ⟨85, 480, 800, false, 3 / 20⟩ (fun _ => none)
          [(ls ("a.opf"), [120]), (ls ("b.opf"), [121])]
    ∧ (∀ n ∈ namelist [(ls ("a.opf"), [120]), (ls ("b.opf"), [121])],
        isOpfName n = true → n ≠ ls ("b.opf") →
        ∀ e ∈ convert_epub ⟨85, 480, 800, false, 3 / 20⟩ (fun _ => none)
            [(ls ("a.opf"), [120]), (ls ("b.opf"), [121])], e.name ≠ n) :=
  C10_last_opf_wins ⟨85, 480, 800, false, 3 / 20⟩ (fun _ => none)
    [(ls ("a.opf"), [120]), (ls ("b.opf"), [121])] (ls ("b.opf"))
    (by decide) (by decide) (by decide)

/-- The package-document rewriting stages that follow the rename substitution
in `opfTransform` (media types, split references, cover meta). -/
def opfPostSub (splits : List (List Char × List SplitRec)) (t1 : List Char) : List Char :=
  let t2 := reSub false mtPat1 (fun _ caps => mtRepl1 caps) t1
  let t3 := reSub false mtPat2 (fun _ caps => mtRepl2 caps) t2
  let t4 := opfSplitSub splits t3
  let fixed := ensure_cover_meta t4
  if fixed.2 then fixed.1 else t4

/-- C4 (amended): the basename-level rename substitution is applied uniformly
(the content-document pass, the package-document pass and the css/ncx copy
pass each run exactly `updateImageReferences`), and that substitution is
case-SENSITIVE: a text without a verbatim occurrence of the old basename is
left unchanged (even if a case variant occurs), and in a text with a verbatim
occurrence the leftmost one is rewritten. -/
theorem C4_rename_sub_case_sensitive (renamed : List (List Char × List Char))
    (splits : List (List Char × List SplitRec)) (arch : List (List Char × List Nat))
    (acc : List OutEntry) (name t old new : List Char)
    (hob : basenameL old ≠ []) :
    (xhtmlTransform renamed splits t
        = xhtmlSplitSub splits (updateImageReferences renamed (fix_svg_cover t).1))
    ∧ (opfTransform renamed splits t
        = opfPostSub splits (updateImageReferences renamed t))
    ∧ ((name == ls ("mimetype")) = false → isImageName name = false →
        isXhtmlName name = false → isOpfName name = false →
        (endsWithL (pyLower name) (ls (".css"))
          || endsWithL (pyLower name) (ls (".ncx"))) = true →
        fourthPassStep arch renamed acc name
          = acc ++ [⟨name, OutData.raw (utf8Encode (updateImageReferences renamed
              (decodeIgnore (readEntry arch name)))), .deflated⟩])
    ∧ (containsSub t (basenameL old) = false →
        pythonReplace (basenameL old) (basenameL new) t = t)
    ∧ (containsSub t (basenameL old) = true →
        ∃ pre post, t = pre ++ basenameL old ++ post
          ∧ (∀ pre2 post2, t = pre2 ++ basenameL old ++ post2 → pre.length ≤ pre2.length)
          ∧ pythonReplace (basenameL old) (basenameL new) t
              = pre ++ basenameL new
                  ++ pythonReplace (basenameL old) (basenameL new) post) := by
  refine ⟨rfl, rfl, ?_, ?_, ?_⟩
  · intro h1 h2 h3 h4 h5
    unfold fourthPassStep
    rw [h1, h2, h3, h4]
    simp only [Bool.false_eq_true, if_false, h5, if_true]
  · intro hno
    exact pythonReplace_no_occ _ _ _ hob hno
  · intro hyes
    exact pythonReplace_leftmost _ _ _ hob hyes

/-- C4 counterexample: the substitution is not case-insensitive.  The renamed
image `Image.PNG` leaves the case variant `IMAGE.PNG` in the text untouched,
even though it is an occurrence of the old basename up to letter case. -/
theorem C4_counterexample :
    updateImageReferences (buildRenamed [ls ("Image.PNG")])
        (ls ("<img src=\x22IMAGE.PNG\x22/>"))
      = ls ("<img src=\x22IMAGE.PNG\x22/>")
    ∧ containsSubCI (ls ("<img src=\x22IMAGE.PNG\x22/>")) (ls ("Image.PNG")) = true := by
  constructor
  · decide
  · decide

/-- Witness for C4: at a concrete rename of `img/a.png`, the text
`see IMG/A.PNG` has no verbatim occurrence of the basename `a.png` and is
returned unchanged. -/
theorem C4_witness :
    basenameL (ls ("img/a.png")) ≠ []
    ∧ pythonReplace (basenameL (ls ("img/a.png"))) (basenameL (ls ("img/a.jpg")))
        (ls ("see IMG/A.PNG")) = ls ("see IMG/A.PNG") :=
  ⟨by decide, (C4_rename_sub_case_sensitive [] [] [] [] (ls ("style.css"))
      (ls ("see IMG/A.PNG")) (ls ("img/a.png")) (ls ("img/a.jpg"))
      (by decide)).2.2.2.1 (by decide)⟩

set_option maxRecDepth 100000 in
/-- C7: `_ensure_cover_meta` is NOT idempotent.  On a package document whose
cover item id contains a slash, the first run inserts
`<meta name="cover" content="a/b"/>` (no space before `/>`, line 490), and the
second run's fix-up branch rewrites it to `... content="a/b" />` (with a
space, lines 476 and 481), so running the repair twice changes the text
again. -/
theorem C7_ensure_cover_meta_not_idempotent :
    (ensure_cover_meta (ensure_cover_meta (ls ("<item id=\x22a/b\x22 href=\x22cover\x22 media-type=\x22image/p\x22/></metadata>"))).1).1
      ≠ (ensure_cover_meta (ls ("<item id=\x22a/b\x22 href=\x22cover\x22 media-type=\x22image/p\x22/></metadata>"))).1 := by
  decide

/-- C1: when the source archive has a `mimetype` entry, the first entry of
the destination archive is named `mimetype`, is stored without compression,
and carries exactly the source entry's bytes (lines 105-109). -/
theorem C1_mimetype_first (cfg : Config) (decode : List Nat → Option Decoded)
    (arch : List (List Char × List Nat))
    (h : (namelist arch).any (fun n => n == ls ("mimetype")) = true) :
    (convert_epub cfg decode arch).head?
      = some ⟨ls ("mimetype"), OutData.raw (readEntry arch (ls ("mimetype"))),
          .stored⟩ := by
  unfold convert_epub mimetypePass
  rw [if_pos h]
  rfl

/-- Witness for C1 at a one-entry archive holding only `mimetype`. -/
theorem C1_witness :
    ((namelist [(ls ("mimetype"), [97, 98])]).any (fun n => n == ls ("mimetype"))) = true
    ∧ (convert_epub ⟨85, 480, 800, false, 3 / 20⟩ (fun _ => none)
        [(ls ("mimetype"), [97, 98])]).head?
      = some ⟨ls ("mimetype"),
          OutData.raw (readEntry [(ls ("mimetype"), [97, 98])] (ls ("mimetype"))),
          .stored⟩ :=
  ⟨by decide, C1_mimetype_first ⟨85, 480, 800, false, 3 / 20⟩ (fun _ => none)
    [(ls ("mimetype"), [97, 98])] (by decide)⟩
